import Mathlib

/-!
Verification development for the voxelgame repository.

This file gives a shallow embedding, in Lean 4, of the parts of the
repository's Rust source that the checked claims are about:

* `src/voxel/voxelarray.rs` — the dense `VoxelArray` storage,
* `src/voxel/voxelevent.rs` — the `OneVoxelChange` voxel event,
* `src/memory/allocator.rs` — the virtual `BlockAllocator`,
* `src/mesh_simplifier.rs` — `MeshSimplifier::process_slice`,
* `src/world/dimension.rs` — chunk coordinate math, `Dimension::set`,
  and the chunk streaming (load/unload) routines,
* `src/world/generators/perlingenerator.rs` — the Perlin world generator.

Conventions of the embedding:

* Rust `usize`/`u32`/`u8` values are modeled as `Nat`, `i32` values as `Int`;
  where the source can wrap (release-mode two's-complement overflow) we apply
  an explicit `wrap32`/truncating cast.
* Rust `f32` values are modeled as exact rationals together with an explicit
  round-to-nearest-even rounding step after every arithmetic operation,
  mirroring IEEE-754 binary32 semantics for normal and subnormal finite
  values (the inputs exercised here never overflow to infinity).
* Stateful code is embedded by explicit state passing; fallible code returns
  `Option` / `Except`.
* The repository's `voxel/voxelmath.rs` module is not present in the given
  sources (only its users are); the few pieces of it that are needed are
  modelled from the specification and marked as such in their doc comments.
-/

/- The Batteries rational-number operations are `@[irreducible]`, which
blocks `decide`-style evaluation of the `f32` model below; restore the
default transparency for them within this file. -/
attribute [local semireducible] Rat.mul Rat.add Rat.sub Rat.inv

/-! ## Voxel positions (from `voxel/voxelmath.rs`, modelled from the spec) -/

/-- Modelled from the spec: `VoxelPos<P>` — three generic integer coordinates
(x,y,z) (spec section 3; `voxel/voxelmath.rs` is missing from the sources). -/
structure VoxelPos (P : Type) where
  x : P
  y : P
  z : P
deriving DecidableEq, Repr

/-! ## VoxelArray (from `src/voxel/voxelarray.rs`) -/

/-- Index math for the flat backing buffer, from `xyz_to_i` in
`voxelarray.rs`: `z*(size_x*size_y) + y*size_x + x`. -/
def xyz_to_i (x y z size_x size_y _size_z : Nat) : Nat :=
  z * (size_x * size_y) + y * size_x + x

/-- From `VoxelArray<T, P>` in `voxelarray.rs`: a declared size plus one flat
buffer. The coordinate type parameter `P` (an unsigned integer type in Rust)
is modeled as `Nat`. -/
structure VoxelArray (T : Type) where
  size_x : Nat
  size_y : Nat
  size_z : Nat
  data : List T
deriving DecidableEq

/-- From `VoxelArray::load_new`. -/
def VoxelArray.load_new {T : Type} (szx szy szz : Nat) (dat : List T) :
    VoxelArray T :=
  { size_x := szx, size_y := szy, size_z := szz, data := dat }

/-- From `VoxelArray::new_solid`: every cell set to `val`. -/
def VoxelArray.new_solid {T : Type} (szx szy szz : Nat) (val : T) :
    VoxelArray T :=
  { size_x := szx, size_y := szy, size_z := szz,
    data := List.replicate (szx * szy * szz) val }

/-- From `VoxelStorage::get` for `VoxelArray`: bounds-check against the
declared size, then packed array access (`data.get(i).map(clone)`). -/
def VoxelArray.get {T : Type} (a : VoxelArray T) (coord : VoxelPos Nat) :
    Option T :=
  if coord.x ≥ a.size_x ∨ coord.y ≥ a.size_y ∨ coord.z ≥ a.size_z then
    none
  else
    a.data.get? (xyz_to_i coord.x coord.y coord.z a.size_x a.size_y a.size_z)

/-- From `VoxelStorage::set` for `VoxelArray`: bounds-check against the
declared size (silent no-op when out of range), then packed array write.
The source's `data.get_mut(i).unwrap()` panics when `i` is outside the
backing buffer; `List.set` is a no-op there instead — that case is
unreachable whenever the buffer has the declared `size_x*size_y*size_z`
length, which is the situation all claims below consider. -/
def VoxelArray.set {T : Type} (a : VoxelArray T) (coord : VoxelPos Nat)
    (value : T) : VoxelArray T :=
  if coord.x ≥ a.size_x ∨ coord.y ≥ a.size_y ∨ coord.z ≥ a.size_z then
    a
  else
    { a with
      data := a.data.set
        (xyz_to_i coord.x coord.y coord.z a.size_x a.size_y a.size_z) value }

/-! ## Voxel events (from `src/voxel/voxelevent.rs`) -/

/-- From `OneVoxelChange<T, P>` in `voxelevent.rs`: a "set one voxel" event
carrying the new value and the target position. -/
structure OneVoxelChange (T P : Type) where
  new_value : T
  pos : VoxelPos P

/-- From `VoxelEventUntyped::apply_blind` for `OneVoxelChange`: it performs
`stor.set(self.pos, self.new_value.clone())` and always reports success, so
the embedding returns the updated storage. Instantiated at the repository's
only flat storage, `VoxelArray`. -/
def OneVoxelChange.apply_blind {T : Type} (e : OneVoxelChange T Nat)
    (stor : VoxelArray T) : VoxelArray T :=
  stor.set e.pos e.new_value

/-! ## BlockAllocator (from `src/memory/allocator.rs`) -/

/-- Allocation entry: a block id paired with the allocated `Range<usize>`
(start, end). -/
abbrev AllocEntry : Type := Nat × Nat × Nat

/-- From `BlockAllocator` in `allocator.rs`. The Rust `HashMap<BlockId,
Range<usize>>` is modeled as an association list in insertion order (one
possible iteration order of the hash map, which Rust leaves unspecified). -/
structure BlockAllocator where
  size : Nat
  allocs : List AllocEntry
deriving DecidableEq

/-- From `BlockAllocator::new`. -/
def BlockAllocator.new (size : Nat) : BlockAllocator :=
  { size := size, allocs := [] }

/-- Fuel-based embedding of the `get_first_free_id` scan
(`while self.allocs.contains_key(&id) { id.0 += 1 }` starting at 1). -/
def firstFreeFrom (allocs : List AllocEntry) : Nat → Nat → Nat
  | 0, id => id
  | fuel + 1, id =>
    if allocs.any (fun e => e.1 = id) then firstFreeFrom allocs fuel (id + 1)
    else id

/-- From `BlockAllocator::get_first_free_id`: the first unused block id,
scanning upward from 1. `allocs.length + 1` fuel always suffices for the
scan to leave the loop exactly as the Rust `while` does. -/
def BlockAllocator.get_first_free_id (a : BlockAllocator) : Nat :=
  firstFreeFrom a.allocs (a.allocs.length + 1) 1

/-- Closed form of the alignment loop in `BlockAllocator::alloc`
(`if alignment != 0 { while e % alignment != 0 { e += 1 } }`): skip bytes
until aligned. -/
def alignUp (e alignment : Nat) : Nat :=
  if alignment = 0 then e else e + (alignment - e % alignment) % alignment

/-- Truncating Rust `as i32` cast from an unsigned value. -/
def i32cast (n : Nat) : Int :=
  ((n % 2 ^ 32 : Nat) : Int) - (if n % 2 ^ 32 ≥ 2 ^ 31 then (2 ^ 32 : Int) else 0)

/-- Two's-complement wrap of an integer into the `i32` range
`[-2^31, 2^31)` (release-mode Rust overflow semantics). -/
def wrap32 (n : Int) : Int :=
  (n + 2 ^ 31) % 2 ^ 32 - 2 ^ 31

/-- Wrapping `i32` subtraction. -/
def i32sub (a b : Int) : Int := wrap32 (a - b)

/-- Inner-loop gap test of `BlockAllocator::alloc` for one candidate
`end` point against one `start` point: a start before the end imposes
nothing (`continue 'inner`), a start less than `size` after the end rejects
the candidate (`continue 'outer`). `start - end` is Rust `usize`
subtraction; in the guarded branch it cannot underflow when both values are
below `2^31` (with larger values debug Rust would panic on underflow). -/
def gapOk (size : Nat) (e s : Nat) : Bool :=
  if i32sub (i32cast s) (i32cast e) < 0 then true
  else decide (¬ s - e < size)

/-- HashMap-style insertion into the association list: replace the entry
with the same key if present, otherwise append. -/
def insertAssoc (k : Nat) (v : Nat × Nat) : List AllocEntry → List AllocEntry
  | [] => [(k, v)]
  | e :: rest => if e.1 = k then (k, v) :: rest else e :: insertAssoc k v rest

/-- From `BlockAllocator::alloc(size, alignment)`: candidate gap starts are
`{0} ∪ {aligned ends}`, gap ends are `{self.size} ∪ {starts}`; the first
candidate passing the gap test for every start is accepted, recorded under
the first free id, and returned with its offset. `none` when no gap is big
enough (in that case the allocator is unchanged, as in the source). -/
def BlockAllocator.alloc (a : BlockAllocator) (size alignment : Nat) :
    Option ((Nat × Nat) × BlockAllocator) :=
  let block_ends : List Nat := 0 :: a.allocs.map (fun en => alignUp en.2.2 alignment)
  let block_starts : List Nat := a.size :: a.allocs.map (fun en => en.2.1)
  match block_ends.find? (fun e => block_starts.all (gapOk size e)) with
  | some e =>
    let next_id := a.get_first_free_id
    some ((next_id, e), { a with allocs := insertAssoc next_id (e, e + size) a.allocs })
  | none => none

/-- From `BlockAllocator::free`: removes the id's entry. -/
def BlockAllocator.free (a : BlockAllocator) (id : Nat) : BlockAllocator :=
  { a with allocs := a.allocs.eraseP (fun e => e.1 = id) }

/-! ## MeshSimplifier::process_slice (from `src/mesh_simplifier.rs`) -/

/-- From `InputQuad` in `mesh_simplifier.rs` (field `exists` is a Lean
keyword, hence the trailing underscore). The `BlockID` (`u32`) is a `Nat`. -/
structure InputQuad where
  x : Nat
  y : Nat
  exists_ : Bool
  done : Bool
  block_id : Nat
deriving DecidableEq, Repr

/-- From `OutputQuad` in `mesh_simplifier.rs`. -/
structure OutputQuad where
  x : Nat
  y : Nat
  w : Nat
  h : Nat
  width_done : Bool
  block_id : Nat
deriving DecidableEq, Repr

/-- Test of one full row `y` across the candidate quad's width
(`for x in x_min..x_max { if !exists || done || id mismatch { ok = false } }`
in `process_slice`). Indexing past the slice buffer would panic in Rust; it
is modeled as a failing test and is unreachable for the 16×16 slices the
claims are about. -/
def rowOk (input : List InputQuad) (current : OutputQuad) (y slice_width : Nat) :
    Bool :=
  (List.range current.w).all fun dx =>
    match input.get? (y * slice_width + (current.x + dx)) with
    | some q => q.exists_ && !q.done && (q.block_id == current.block_id)
    | none => false

/-- Mark one cell's `done` flag in the slice buffer. -/
def setDone (input : List InputQuad) (i : Nat) : List InputQuad :=
  match input.get? i with
  | some q => input.set i { q with done := true }
  | none => input

/-- Mark the cells of row `y` across the candidate quad's width as done
(`for x in x_min..x_max { input_quads[y*slice_width+x].done = true; }`). -/
def markRowDone (input : List InputQuad) (current : OutputQuad)
    (y slice_width : Nat) : List InputQuad :=
  (List.range current.w).foldl
    (fun inp dx => setDone inp (y * slice_width + (current.x + dx))) input

/-- Fuel-based embedding of the inner height-expansion `loop` of
`process_slice`: keep absorbing full rows while each next row matches;
note the source's exit test `if y >= slice_width { break; }` compares
against the slice WIDTH (not height), exactly as in the Rust. -/
def expandHeight (input : List InputQuad) (current : OutputQuad)
    (y slice_width : Nat) : Nat → List InputQuad × OutputQuad
  | 0 => (input, current)
  | fuel + 1 =>
    if rowOk input current y slice_width then
      let input1 := markRowDone input current y slice_width
      let current1 := { current with h := current.h + 1 }
      if y + 1 ≥ slice_width then (input1, current1)
      else expandHeight input1 current1 (y + 1) slice_width fuel
    else (input, current)

/-- Fuel-based embedding of the outer `while i < slice_width*slice_height`
loop of `process_slice`. One recursive call is one loop iteration; the
three `continue` paths and the end-of-loop push are mirrored exactly.
The source's `input_quads.get_mut(i).unwrap().clone()` CLONES the cell, so
the `q.done = true` writes on `q` never reach the buffer — the embedding
reads the cell and likewise never writes it back. -/
def processLoop (slice_width slice_height : Nat) :
    Nat → List InputQuad → Nat → Option OutputQuad → List OutputQuad →
    List OutputQuad
  | 0, _, _, _, output => output
  | fuel + 1, input, i, currentOpt, output =>
    if i < slice_width * slice_height then
      match input.get? i with
      | none => output
      | some q =>
        match currentOpt with
        | none =>
          let current :=
            if q.exists_ && !q.done then
              some { x := q.x, y := q.y, w := 1, h := 1, width_done := false,
                     block_id := q.block_id }
            else none
          processLoop slice_width slice_height fuel input (i + 1) current output
        | some current0 =>
          let current :=
            if !current0.width_done then
              if q.x > current0.x then
                if q.exists_ && !q.done && (q.block_id == current0.block_id) then
                  { current0 with w := current0.w + 1 }
                else { current0 with width_done := true }
              else { current0 with width_done := true }
            else current0
          if current.width_done then
            let st :=
              if current.y + 1 < slice_height then
                expandHeight input current (current.y + 1) slice_width
                  (slice_width + 1)
              else (input, current)
            processLoop slice_width slice_height fuel st.1 i none
              (output ++ [st.2])
          else
            if i + 1 ≥ slice_width * slice_height then output ++ [current]
            else processLoop slice_width slice_height fuel input (i + 1)
              (some current) output
    else output

/-- From `MeshSimplifier::process_slice`: greedy 2-D merge of one slice.
Every loop iteration either advances `i` or clears `current_quad`, and a
cleared `current_quad` at the same `i` advances `i` on the next iteration,
so `2*slice_width*slice_height + 2` fuel is never exhausted. -/
def process_slice (input_quads : List InputQuad)
    (slice_width slice_height : Nat) : List OutputQuad :=
  processLoop slice_width slice_height (2 * slice_width * slice_height + 2)
    input_quads 0 none []

/-- Helper to build a 16×16 input slice the way `generate_quads` does
(row-major, all `done` flags false): cell `(x, y)` exists with block id
`id x y` iff `p x y`. -/
def mkSlice (w h : Nat) (p : Nat → Nat → Bool) (id : Nat → Nat → Nat) :
    List InputQuad :=
  (List.range (w * h)).map fun i =>
    { x := i % w, y := i / w, exists_ := p (i % w) (i / w), done := false,
      block_id := id (i % w) (i / w) }

/-! ## Invariants and operation sequences for the BlockAllocator -/

/-- One externally invocable `BlockAllocator` operation. -/
inductive AllocOp where
  | alloc (size alignment : Nat)
  | free (id : Nat)
deriving DecidableEq, Repr

/-- Run a sequence of operations against a `BlockAllocator`, discarding the
returned ids/offsets (a failed `alloc` leaves the allocator unchanged, as in
the source). -/
def runOps : BlockAllocator → List AllocOp → BlockAllocator
  | a, [] => a
  | a, AllocOp.alloc s al :: rest =>
    runOps (match a.alloc s al with | some pr => pr.2 | none => a) rest
  | a, AllocOp.free id :: rest => runOps (a.free id) rest

/-- Per-operation side condition of the amended C9: every allocation has
positive size and alignment at most 1. -/
def OpOk : AllocOp → Prop
  | AllocOp.alloc s al => 0 < s ∧ al ≤ 1
  | AllocOp.free _ => True

instance : DecidablePred OpOk := fun op => by
  cases op <;> unfold OpOk <;> infer_instance

/-- Disjointness relation on two allocation entries: their half-open ranges
do not overlap. -/
def EntryDisjoint (e1 e2 : AllocEntry) : Prop :=
  e1.2.2 ≤ e2.2.1 ∨ e2.2.2 ≤ e1.2.1

instance : DecidableRel EntryDisjoint := fun e1 e2 => by
  unfold EntryDisjoint; infer_instance

/-- The safety invariant claimed for the allocs map: every recorded range is
nonempty and contained in `[0, total)`, and the ranges are pairwise
disjoint. -/
def RangesOk (total : Nat) (allocs : List AllocEntry) : Prop :=
  (∀ e ∈ allocs, e.2.1 < e.2.2 ∧ e.2.2 ≤ total) ∧
  allocs.Pairwise EntryDisjoint

instance (total : Nat) (allocs : List AllocEntry) :
    Decidable (RangesOk total allocs) := by
  unfold RangesOk; infer_instance

/-! ## Lemmas about VoxelArray -/

/-- The packed index of an in-bounds coordinate is inside a buffer of the
declared length. -/
theorem xyz_to_i_lt {x y z sx sy sz : Nat} (hx : x < sx) (hy : y < sy)
    (hz : z < sz) : xyz_to_i x y z sx sy sz < sx * sy * sz := by
  unfold xyz_to_i
  calc z * (sx * sy) + y * sx + x < z * (sx * sy) + y * sx + sx := by omega
    _ = z * (sx * sy) + (y + 1) * sx := by ring
    _ ≤ z * (sx * sy) + sy * sx := by
        have h3 : (y + 1) * sx ≤ sy * sx := Nat.mul_le_mul_right sx hy
        omega
    _ = (z + 1) * (sx * sy) := by ring
    _ ≤ sz * (sx * sy) := Nat.mul_le_mul_right (sx * sy) hz
    _ = sx * sy * sz := by ring

/-- C4. For every `VoxelArray` whose backing buffer has the declared
`size_x*size_y*size_z` length: an in-bounds `set` followed by `get` at the
same position returns the written value, while any position with a
coordinate at or beyond the declared size on its axis makes `get` return
`none` and `set` a complete no-op. -/
theorem voxelarray_set_get_roundtrip_and_oob {T : Type} (a : VoxelArray T)
    (hlen : a.data.length = a.size_x * a.size_y * a.size_z)
    (p : VoxelPos Nat) (v : T) :
    (p.x < a.size_x ∧ p.y < a.size_y ∧ p.z < a.size_z →
      (a.set p v).get p = some v) ∧
    (a.size_x ≤ p.x ∨ a.size_y ≤ p.y ∨ a.size_z ≤ p.z →
      a.get p = none ∧ a.set p v = a) := by
  constructor
  · rintro ⟨hx, hy, hz⟩
    have hoob : ¬ (p.x ≥ a.size_x ∨ p.y ≥ a.size_y ∨ p.z ≥ a.size_z) := by
      omega
    have hidx : xyz_to_i p.x p.y p.z a.size_x a.size_y a.size_z < a.data.length := by
      rw [hlen]; exact xyz_to_i_lt hx hy hz
    simp only [VoxelArray.set, VoxelArray.get, if_neg hoob]
    have hidx2 : xyz_to_i p.x p.y p.z a.size_x a.size_y a.size_z <
        (a.data.set (xyz_to_i p.x p.y p.z a.size_x a.size_y a.size_z) v).length := by
      simpa using hidx
    simp [List.getElem?_set_self, hidx]
  · intro hoob
    have h : p.x ≥ a.size_x ∨ p.y ≥ a.size_y ∨ p.z ≥ a.size_z := by omega
    constructor
    · simp only [VoxelArray.get, if_pos h]
    · simp only [VoxelArray.set, if_pos h]

/-- Witness for C4 at a concrete array, position and value. -/
theorem voxelarray_set_get_roundtrip_and_oob_witness :
    ((VoxelArray.load_new 2 2 2 (List.replicate 8 (0 : Nat))).set
        ⟨1, 0, 1⟩ 5).get ⟨1, 0, 1⟩ = some 5 ∧
    (VoxelArray.load_new 2 2 2 (List.replicate 8 (0 : Nat))).get ⟨1, 2, 0⟩ = none := by
  constructor
  · exact (voxelarray_set_get_roundtrip_and_oob
      (VoxelArray.load_new 2 2 2 (List.replicate 8 (0 : Nat))) (by decide)
      ⟨1, 0, 1⟩ 5).1 (by decide)
  · exact ((voxelarray_set_get_roundtrip_and_oob
      (VoxelArray.load_new 2 2 2 (List.replicate 8 (0 : Nat))) (by decide)
      ⟨1, 2, 0⟩ 5).2 (by decide)).1

/-- C6. Applying the same `OneVoxelChange` event twice in sequence via
`apply_blind` leaves the storage in exactly the state one application
produces, for every `VoxelArray` storage, position and value. -/
theorem apply_blind_idempotent {T : Type} (e : OneVoxelChange T Nat)
    (stor : VoxelArray T) :
    e.apply_blind (e.apply_blind stor) = e.apply_blind stor := by
  unfold OneVoxelChange.apply_blind VoxelArray.set
  by_cases h : e.pos.x ≥ stor.size_x ∨ e.pos.y ≥ stor.size_y ∨ e.pos.z ≥ stor.size_z
  · simp [if_pos h]
  · simp only [if_neg h]
    simp only [List.set_set]

/-- C5. First-fit behavior on a fresh 1024-byte pool: `alloc(100,1)` returns
id 1 at offset 0 mapped to range [0,100); after a second `alloc(100,1)`
(range [100,200)) and a `free` of the first id, another `alloc(100,1)`
returns offset 0 again under id 1, which is not in use at the time of that
call. -/
theorem blockallocator_first_fit_and_reuse :
    (BlockAllocator.new 1024).alloc 100 1 =
      some ((1, 0), { size := 1024, allocs := [(1, 0, 100)] }) ∧
    ({ size := 1024, allocs := [(1, 0, 100)] } : BlockAllocator).alloc 100 1 =
      some ((2, 100), { size := 1024, allocs := [(1, 0, 100), (2, 100, 200)] }) ∧
    ({ size := 1024, allocs := [(1, 0, 100), (2, 100, 200)] } :
        BlockAllocator).free 1 = { size := 1024, allocs := [(2, 100, 200)] } ∧
    ({ size := 1024, allocs := [(2, 100, 200)] } : BlockAllocator).alloc 100 1 =
      some ((1, 0), { size := 1024, allocs := [(2, 100, 200), (1, 0, 100)] }) ∧
    (({ size := 1024, allocs := [(2, 100, 200)] } :
        BlockAllocator).allocs.all fun e => e.1 ≠ 1) := by
  refine ⟨by decide, by decide, by decide, by decide, by decide⟩

/-- C9 counterexample. Starting from `BlockAllocator::new(1024)`, the call
sequence `alloc(10,1); alloc(484,16); alloc(100,32)` (all sizes positive)
leaves the allocs map holding ranges [0,10), [16,500) and [32,132): the
third allocation was placed at the 32-aligned end of the first block, which
lies strictly inside the second block's range, so the recorded ranges are
not pairwise disjoint. -/
theorem blockallocator_alignment_overlap_counterexample :
    (runOps (BlockAllocator.new 1024)
        [AllocOp.alloc 10 1, AllocOp.alloc 484 16, AllocOp.alloc 100 32]).allocs =
      [(1, 0, 10), (2, 16, 500), (3, 32, 132)] ∧
    ¬ RangesOk 1024
      (runOps (BlockAllocator.new 1024)
        [AllocOp.alloc 10 1, AllocOp.alloc 484 16, AllocOp.alloc 100 32]).allocs := by
  refine ⟨by decide, by decide⟩

/-! ## Supporting lemmas for the amended C9 invariant -/

theorem alignUp_of_le_one {al : Nat} (h : al ≤ 1) (e : Nat) : alignUp e al = e := by
  interval_cases al <;> simp [alignUp, Nat.mod_one]

theorem wrap32_eq_self {n : Int} (h1 : -(2 ^ 31) ≤ n) (h2 : n < 2 ^ 31) :
    wrap32 n = n := by
  unfold wrap32
  have : (n + 2 ^ 31) % 2 ^ 32 = n + 2 ^ 31 :=
    Int.emod_eq_of_lt (by omega) (by omega)
  omega

theorem i32cast_eq_self {n : Nat} (h : n < 2 ^ 31) : i32cast n = (n : Int) := by
  unfold i32cast
  have hmod : n % 2 ^ 32 = n := Nat.mod_eq_of_lt (by omega)
  rw [hmod]
  simp only [if_neg (by omega : ¬ n ≥ 2 ^ 31)]
  omega

/-- For values below `2^31` the gap test says exactly: the start is before
the candidate end, or it leaves room for `size` bytes. -/
theorem gapOk_iff {size e s : Nat} (he : e < 2 ^ 31) (hs : s < 2 ^ 31) :
    gapOk size e s = true ↔ (s < e ∨ e + size ≤ s) := by
  unfold gapOk i32sub
  rw [i32cast_eq_self he, i32cast_eq_self hs]
  rw [wrap32_eq_self (by omega) (by omega)]
  by_cases hlt : (s : Int) - e < 0
  · simp only [if_pos hlt]
    constructor
    · intro _; left; omega
    · intro _; trivial
  · simp only [if_neg hlt]
    simp only [decide_eq_true_eq]
    omega

theorem mem_insertAssoc {k : Nat} {v : Nat × Nat} {l : List AllocEntry}
    {x : AllocEntry} (hx : x ∈ insertAssoc k v l) : x = (k, v) ∨ x ∈ l := by
  induction l with
  | nil => simpa [insertAssoc] using hx
  | cons e rest ih =>
    unfold insertAssoc at hx
    by_cases he : e.1 = k
    · rw [if_pos he] at hx
      rcases List.mem_cons.mp hx with h | h
      · left; exact h
      · right; exact List.mem_cons_of_mem e h
    · rw [if_neg he] at hx
      rcases List.mem_cons.mp hx with h | h
      · right; exact h ▸ List.mem_cons_self e rest
      · rcases ih h with h1 | h1
        · left; exact h1
        · right; exact List.mem_cons_of_mem e h1

theorem insertAssoc_pairwise {k : Nat} {v : Nat × Nat} {l : List AllocEntry}
    (hall : ∀ x ∈ l, EntryDisjoint (k, v) x)
    (hp : l.Pairwise EntryDisjoint) :
    (insertAssoc k v l).Pairwise EntryDisjoint := by
  induction l with
  | nil => simp [insertAssoc]
  | cons e rest ih =>
    rcases List.pairwise_cons.mp hp with ⟨he_rest, hrest⟩
    unfold insertAssoc
    by_cases he : e.1 = k
    · rw [if_pos he]
      refine List.pairwise_cons.mpr ⟨?_, hrest⟩
      intro x hx
      exact hall x (List.mem_cons_of_mem e hx)
    · rw [if_neg he]
      refine List.pairwise_cons.mpr ⟨?_, ?_⟩
      · intro x hx
        rcases mem_insertAssoc hx with h1 | h1
        · subst h1
          rcases hall e (List.mem_cons_self e rest) with h2 | h2
          · right; exact h2
          · left; exact h2
        · exact he_rest x h1
      · exact ih (fun x hx => hall x (List.mem_cons_of_mem e hx)) hrest

theorem entryDisjoint_symm : Symmetric EntryDisjoint := by
  intro a b h
  exact Or.symm h

/-- Core step lemma for the amended C9: with positive size, no alignment
padding (alignment ≤ 1) and a pool smaller than `2^31`, a successful
`alloc` preserves the range invariant and the pool size. -/
theorem alloc_step {a : BlockAllocator} {s al : Nat} {r : Nat × Nat}
    {b : BlockAllocator} (h : a.alloc s al = some (r, b))
    (hinv : RangesOk a.size a.allocs) (hsize : a.size < 2 ^ 31)
    (hs : 0 < s) (hal : al ≤ 1) :
    b.size = a.size ∧ RangesOk a.size b.allocs := by
  unfold BlockAllocator.alloc at h
  simp only [alignUp_of_le_one hal] at h
  cases hfind : (0 :: a.allocs.map fun en => en.2.2).find?
      (fun e => ((a.size :: a.allocs.map fun en => en.2.1).all (gapOk s e))) with
  | none =>
    rw [hfind] at h
    exact absurd h (by simp)
  | some e =>
    rw [hfind] at h
    have hmem := List.mem_of_find?_eq_some hfind
    have hpred := List.find?_some hfind
    have hall : ∀ st ∈ a.size :: a.allocs.map (fun en => en.2.1),
        gapOk s e st = true := List.all_eq_true.mp hpred
    -- the accepted end is 0 or the exact end of some recorded range
    have he_cases : e = 0 ∨ ∃ en ∈ a.allocs, en.2.2 = e := by
      rcases List.mem_cons.mp hmem with h0 | h1
      · left; exact h0
      · right
        rcases List.mem_map.mp h1 with ⟨en, hen, heq⟩
        exact ⟨en, hen, heq⟩
    have he_le : e ≤ a.size := by
      rcases he_cases with h0 | ⟨en, hen, heq⟩
      · omega
      · have := (hinv.1 en hen).2; omega
    have he_lt : e < 2 ^ 31 := by omega
    -- the gap test, decoded for every recorded start and the pool boundary
    have hstart : ∀ en ∈ a.allocs, en.2.1 < e ∨ e + s ≤ en.2.1 := by
      intro en hen
      have hst : en.2.1 < 2 ^ 31 := by
        have h1 := (hinv.1 en hen).1
        have h2 := (hinv.1 en hen).2
        omega
      have := (gapOk_iff he_lt hst).mp
        (hall en.2.1 (List.mem_cons_of_mem _ (List.mem_map_of_mem _ hen)))
      omega
    have hfit : e + s ≤ a.size := by
      have := (gapOk_iff he_lt hsize).mp (hall a.size (List.mem_cons_self _ _))
      omega
    -- the fresh range is disjoint from every recorded range
    have hdisj : ∀ en ∈ a.allocs,
        EntryDisjoint (a.get_first_free_id, e, e + s) en := by
      intro en hen
      rcases hstart en hen with hlt | hge
      · right
        show en.2.2 ≤ e
        rcases he_cases with h0 | ⟨enj, henj, heqj⟩
        · omega
        · by_cases hsame : en = enj
          · rw [hsame, heqj]
          · have hpair := List.Pairwise.forall entryDisjoint_symm hinv.2 hen henj hsame
            rcases hpair with h1 | h2
            · have : enj.2.1 < enj.2.2 := (hinv.1 enj henj).1
              omega
            · omega
      · left
        exact hge
    -- decode the successful return
    have ha1 : b = { a with allocs := insertAssoc a.get_first_free_id (e, e + s) a.allocs } := by
      simp only [Option.some.injEq, Prod.mk.injEq] at h
      exact h.2.symm
    subst ha1
    refine ⟨rfl, ?_, ?_⟩
    · intro x hx
      rcases mem_insertAssoc hx with h1 | h1
      · subst h1
        refine ⟨?_, ?_⟩
        · show e < e + s
          omega
        · show e + s ≤ a.size
          exact hfit
      · exact hinv.1 x h1
    · exact insertAssoc_pairwise hdisj hinv.2

/-- Freeing preserves the range invariant (it only removes an entry). -/
theorem free_step {t : Nat} {a : BlockAllocator} {id : Nat}
    (hinv : RangesOk t a.allocs) : RangesOk t (a.free id).allocs := by
  have hsub : ((a.free id).allocs).Sublist a.allocs := List.eraseP_sublist _
  exact ⟨fun x hx => hinv.1 x (hsub.mem hx), hinv.2.sublist hsub⟩

/-- Invariant preservation along any operation sequence whose allocations
all have positive size and alignment ≤ 1, on a pool smaller than `2^31`. -/
theorem runOps_cons_alloc (a : BlockAllocator) (s al : Nat) (rest : List AllocOp) :
    runOps a (AllocOp.alloc s al :: rest) =
      runOps (match a.alloc s al with | some pr => pr.2 | none => a) rest := rfl

theorem runOps_cons_free (a : BlockAllocator) (id : Nat) (rest : List AllocOp) :
    runOps a (AllocOp.free id :: rest) = runOps (a.free id) rest := rfl

theorem runOps_RangesOk (ops : List AllocOp) :
    ∀ a : BlockAllocator, RangesOk a.size a.allocs → a.size < 2 ^ 31 →
    (∀ op ∈ ops, OpOk op) →
    (runOps a ops).size = a.size ∧ RangesOk a.size (runOps a ops).allocs := by
  induction ops with
  | nil => intro a hinv _ _; exact ⟨rfl, hinv⟩
  | cons op rest ih =>
    intro a hinv hsize hops
    have hrest : ∀ op ∈ rest, OpOk op :=
      fun o ho => hops o (List.mem_cons_of_mem op ho)
    cases op with
    | alloc s al =>
      have hop : 0 < s ∧ al ≤ 1 := hops (AllocOp.alloc s al) (List.mem_cons_self _ _)
      rw [runOps_cons_alloc]
      cases halloc : a.alloc s al with
      | none =>
        exact ih a hinv hsize hrest
      | some ra1 =>
        obtain ⟨hsz, hinv1⟩ := alloc_step (r := ra1.1) (b := ra1.2)
          (by rw [halloc]) hinv hsize hop.1 hop.2
        have := ih ra1.2 (hsz ▸ hinv1) (by omega) hrest
        rw [hsz] at this
        exact this
    | free id =>
      rw [runOps_cons_free]
      have hfree : (a.free id).size = a.size := rfl
      have := ih (a.free id) (hfree ▸ free_step hinv) (by omega) hrest
      rw [hfree] at this
      exact this

/-- C9 amended. Starting from `BlockAllocator::new(total)` with
`total < 2^31`, any sequence of `alloc`/`free` calls in which every `alloc`
has positive size and alignment ≤ 1 keeps the recorded ranges pairwise
disjoint, nonempty and contained in `[0, total)`. (The original claim - for
arbitrary alignment - is refuted by
`blockallocator_alignment_overlap_counterexample`.) -/
theorem blockallocator_ranges_disjoint_amended (ops : List AllocOp)
    (total : Nat) (htot : total < 2 ^ 31)
    (hops : ∀ op ∈ ops, OpOk op) :
    RangesOk total (runOps (BlockAllocator.new total) ops).allocs := by
  have h := runOps_RangesOk ops (BlockAllocator.new total)
    ⟨fun x hx => absurd hx (List.not_mem_nil x), List.Pairwise.nil⟩ htot hops
  exact h.2

/-- Witness for the amended C9 at a concrete operation sequence. -/
theorem blockallocator_ranges_disjoint_amended_witness :
    RangesOk 1024 ((runOps (BlockAllocator.new 1024)
      [AllocOp.alloc 100 1, AllocOp.free 1, AllocOp.alloc 50 1]).allocs) :=
  blockallocator_ranges_disjoint_amended
    [AllocOp.alloc 100 1, AllocOp.free 1, AllocOp.alloc 50 1] 1024
    (by decide) (by decide)

/-! ## C1: process_slice coverage -/

/-- C1 evaluation. For the uniform full 16×16 slice (every cell exists with
block id 1) `process_slice` returns exactly one 16×16 quad, as the claim
states. But for the slice whose only existing cell is `(15, 15)` — the cell
the scan reaches last — `process_slice` returns NO quads at all, although
that cell exists: the loop starts a candidate quad at the final cell, then
exits the `while` without pushing it (the `i += 1; continue;` path in the
`current_quad.is_none()` branch bypasses the end-of-loop push at
`if i >= slice_width*slice_height`). The claim's exact-cover property
therefore fails on this input, contradicting the source's own
end-of-loop-push intent and the specification. -/
theorem process_slice_drops_quad_started_at_last_cell :
    process_slice (mkSlice 16 16 (fun _ _ => true) (fun _ _ => 1)) 16 16 =
      [{ x := 0, y := 0, w := 16, h := 16, width_done := true, block_id := 1 }] ∧
    (mkSlice 16 16 (fun x y => x == 15 && y == 15) (fun _ _ => 1)).get? 255 =
      some { x := 15, y := 15, exists_ := true, done := false, block_id := 1 } ∧
    process_slice (mkSlice 16 16 (fun x y => x == 15 && y == 15) (fun _ _ => 1))
      16 16 = [] := by
  refine ⟨?_, by decide, ?_⟩
  · set_option maxRecDepth 10000 in decide
  · set_option maxRecDepth 10000 in decide

/-! ## Exact model of Rust `f32` arithmetic over ℚ

Finite IEEE-754 binary32 values are exactly certain dyadic rationals; each
Rust `f32` operation is modeled as the exact rational operation followed by
round-to-nearest-even onto the binary32 grid (24-bit significand, normal
exponent down to -126, subnormal grid 2^-149). The inputs exercised by the
claims never reach the infinite/NaN range, so overflow is not modeled. -/

/-- Fuel-based base-2 logarithm (the fuel makes it kernel-reducible). -/
def natLog2Aux : Nat → Nat → Nat
  | 0, _ => 0
  | fuel + 1, n => if n ≥ 2 then natLog2Aux fuel (n / 2) + 1 else 0

/-- Floor base-2 logarithm of a natural number. -/
def natLog2 (n : Nat) : Nat := natLog2Aux n n

/-- Integer power of two as a rational (kernel-reducible form of
`(2 : ℚ) ^ (e : ℤ)`). -/
def pow2 (e : Int) : ℚ :=
  if 0 ≤ e then Rat.ofInt ((2 ^ e.toNat : Nat) : Int)
  else (1 : ℚ) / Rat.ofInt ((2 ^ (-e).toNat : Nat) : Int)

/-- Floor base-2 logarithm of a positive rational: the unique `e` with
`2^e ≤ q < 2^(e+1)`. -/
def ratLog2 (q : ℚ) : Int :=
  let e0 : Int := (natLog2 q.num.natAbs : Int) - (natLog2 q.den : Int)
  if pow2 e0 ≤ q then e0 else e0 - 1

/-- Round a rational to the nearest integer, ties to even. -/
def rne (q : ℚ) : Int :=
  let f := ⌊q⌋
  let r := q - Rat.ofInt f
  if r < 1 / 2 then f
  else if 1 / 2 < r then f + 1
  else if f % 2 = 0 then f else f + 1

/-- Round an exact rational to the nearest IEEE-754 binary32 value
(round-to-nearest-even), expressed as a rational. -/
def roundF32 (q : ℚ) : ℚ :=
  if q = 0 then 0
  else
    let e : Int := max (ratLog2 |q|) (-126)
    let g : Int := e - 23
    Rat.ofInt (rne (q * pow2 (-g))) * pow2 g

/-- Rust `f32` addition. -/
def f32add (a b : ℚ) : ℚ := roundF32 (a + b)

/-- Rust `f32` subtraction. -/
def f32sub (a b : ℚ) : ℚ := roundF32 (a - b)

/-- Rust `f32` multiplication. -/
def f32mul (a b : ℚ) : ℚ := roundF32 (a * b)

/-- Rust `f32` division (division by zero, which would give an infinity,
is never reached by the embedded code paths). -/
def f32div (a b : ℚ) : ℚ := if b = 0 then 0 else roundF32 (a / b)

/-- Rust `f32::floor`: exact, since the floor of a finite binary32 value is
itself exactly representable. -/
def f32floor (a : ℚ) : ℚ := Rat.ofInt ⌊a⌋

/-- Rust integer-to-`f32` cast (`x as f32`). -/
def f32ofInt (x : Int) : ℚ := roundF32 (Rat.ofInt x)

/-- Rust `f32`-to-`i32` cast (`x as i32`): truncate toward zero, saturating
at the `i32` range. -/
def f32toI32 (a : ℚ) : Int :=
  let t : Int := if 0 ≤ a then ⌊a⌋ else -⌊-a⌋
  if t < -(2 ^ 31) then -(2 ^ 31) else if t > 2 ^ 31 - 1 then 2 ^ 31 - 1 else t

/-- Fuel-based integer square root (digit-by-digit on base-4 digits). -/
def isqrtAux : Nat → Nat → Nat
  | 0, _ => 0
  | fuel + 1, n =>
    if n ≤ 1 then n
    else
      let r := 2 * isqrtAux fuel (n / 4)
      if (r + 1) * (r + 1) ≤ n then r + 1 else r

/-- Integer square root: the largest `r` with `r*r ≤ n`. -/
def isqrt (n : Nat) : Nat := isqrtAux (natLog2 n + 1) n

/-- Round the real square root of a nonnegative rational to the nearest
integer, ties to even: compare `√y` against `n + 1/2` by comparing `4y`
against `4n² + 4n + 1`. -/
def sqrtRNE (y : ℚ) : Int :=
  let n := isqrt ⌊y⌋.toNat
  if Rat.ofInt ((4 * n * n + 4 * n + 1 : Nat) : Int) < 4 * y then (n : Int) + 1
  else if 4 * y < Rat.ofInt ((4 * n * n + 4 * n + 1 : Nat) : Int) then (n : Int)
  else if n % 2 = 0 then (n : Int) else (n : Int) + 1

/-- Rust `f32::sqrt`: IEEE-754 correctly rounded square root
(round-to-nearest-even), expressed on exact rationals. Negative inputs
(which would give NaN) are never reached: every use below takes a sum of
squares. -/
def sqrtF32 (q : ℚ) : ℚ :=
  if q ≤ 0 then 0
  else
    let e : Int := Int.fdiv (ratLog2 q) 2
    let g : Int := max (e - 23) (-149)
    Rat.ofInt (sqrtRNE (q * pow2 (-(2 * g)))) * pow2 g

/-- A 3-component `f32` point (cgmath `Point3<f32>`), as exact rationals. -/
structure P3 where
  x : ℚ
  y : ℚ
  z : ℚ
deriving DecidableEq

/-- cgmath `Point3::distance(a, b)`: per-component subtraction, then
`dx*dx + dy*dy + dz*dz` (left-associated), then `sqrt`, every step in `f32`. -/
def distanceF32 (a b : P3) : ℚ :=
  let dx := f32sub b.x a.x
  let dy := f32sub b.y a.y
  let dz := f32sub b.z a.z
  sqrtF32 (f32add (f32add (f32mul dx dx) (f32mul dy dy)) (f32mul dz dz))

/-! ## Chunk coordinate math (from `src/world/dimension.rs`) -/

/-- One axis of `blockpos_to_chunk`:
`(point as f32 / chunk_size as f32).floor() as i32`. -/
def chunk_axis (x : Int) (s : Nat) : Int :=
  f32toI32 (f32floor (f32div (f32ofInt x) (f32ofInt (s : Int))))

/-- From `blockpos_to_chunk` in `dimension.rs`: per-axis
`(coord as f32 / chunk_size as f32).floor() as i32`. -/
def blockpos_to_chunk (point : VoxelPos Int) (chunk_size : VoxelPos Nat) :
    VoxelPos Int :=
  { x := chunk_axis point.x chunk_size.x,
    y := chunk_axis point.y chunk_size.y,
    z := chunk_axis point.z chunk_size.z }

/-- From `chunkpos_to_block` in `dimension.rs`: per-axis
`point * chunk_size as i32` (wrapping `i32` multiplication). -/
def chunkpos_to_block (point : VoxelPos Int) (chunk_size : VoxelPos Nat) :
    VoxelPos Int :=
  { x := wrap32 (point.x * (chunk_size.x : Int)),
    y := wrap32 (point.y * (chunk_size.y : Int)),
    z := wrap32 (point.z * (chunk_size.z : Int)) }

/-- From `chunkpos_to_center` in `dimension.rs`:
`block_pos as f32 + (chunk_size as f32 * 0.5)` per axis (the literal `0.5`
is exactly representable). -/
def chunkpos_to_center (point : VoxelPos Int) (chunk_size : VoxelPos Nat) : P3 :=
  let block_pos := chunkpos_to_block point chunk_size
  { x := f32add (f32ofInt block_pos.x) (f32mul (f32ofInt (chunk_size.x : Int)) (1 / 2)),
    y := f32add (f32ofInt block_pos.y) (f32mul (f32ofInt (chunk_size.y : Int)) (1 / 2)),
    z := f32add (f32ofInt block_pos.z) (f32mul (f32ofInt (chunk_size.z : Int)) (1 / 2)) }

/-! ## Lemmas about the f32 model -/

theorem pow2_eq_zpow (e : Int) : pow2 e = (2 : ℚ) ^ e := by
  unfold pow2
  by_cases h : 0 ≤ e
  · rw [if_pos h, Rat.ofInt_eq_cast]
    push_cast
    rw [← zpow_natCast]
    congr 1
    omega
  · rw [if_neg h, Rat.ofInt_eq_cast]
    push_cast
    rw [one_div, ← zpow_natCast, ← zpow_neg]
    congr 1
    omega

theorem pow2_pos (e : Int) : 0 < pow2 e := by
  rw [pow2_eq_zpow]; exact zpow_pos two_pos e

theorem pow2_add (a b : Int) : pow2 (a + b) = pow2 a * pow2 b := by
  rw [pow2_eq_zpow, pow2_eq_zpow, pow2_eq_zpow]
  exact zpow_add₀ two_ne_zero a b

theorem pow2_zero : pow2 0 = 1 := by rw [pow2_eq_zpow]; norm_num

theorem pow2_le_iff {a b : Int} : pow2 a ≤ pow2 b ↔ a ≤ b := by
  rw [pow2_eq_zpow, pow2_eq_zpow]
  exact zpow_le_zpow_iff_right₀ one_lt_two

theorem pow2_lt_iff {a b : Int} : pow2 a < pow2 b ↔ a < b := by
  rw [pow2_eq_zpow, pow2_eq_zpow]
  exact zpow_lt_zpow_iff_right₀ one_lt_two

theorem pow2_natCast (n : Nat) : pow2 (n : Int) = ((2 ^ n : Nat) : ℚ) := by
  rw [pow2_eq_zpow]
  push_cast
  rw [← zpow_natCast]

theorem natLog2Aux_eq : ∀ fuel n, n ≤ fuel → natLog2Aux fuel n = Nat.log2 n := by
  intro fuel
  induction fuel with
  | zero =>
    intro n hn
    have : n = 0 := by omega
    subst this
    rw [Nat.log2]
    simp [natLog2Aux]
  | succ fuel ih =>
    intro n hn
    unfold natLog2Aux
    by_cases h2 : n ≥ 2
    · rw [if_pos h2, ih (n / 2) (by omega)]
      conv_rhs => rw [Nat.log2]
      rw [if_pos h2]
    · rw [if_neg h2]
      conv_rhs => rw [Nat.log2]
      rw [if_neg h2]

theorem natLog2_eq (n : Nat) : natLog2 n = Nat.log2 n :=
  natLog2Aux_eq n n le_rfl

theorem natLog2_le_self {n : Nat} (h : n ≠ 0) : 2 ^ natLog2 n ≤ n := by
  rw [natLog2_eq, Nat.log2_eq_log_two]
  exact Nat.pow_log_le_self 2 h

theorem natLog2_lt_self (n : Nat) : n < 2 ^ (natLog2 n + 1) := by
  rw [natLog2_eq, Nat.log2_eq_log_two]
  exact Nat.lt_pow_succ_log_self (by norm_num) n

/-- The characterizing bracket of `ratLog2`: for a positive rational it is
the unique exponent with `2^e ≤ q < 2^(e+1)`. -/
theorem ratLog2_bracket {q : ℚ} (hq : 0 < q) :
    pow2 (ratLog2 q) ≤ q ∧ q < pow2 (ratLog2 q + 1) := by
  have hnum_pos : 0 < q.num := Rat.num_pos.mpr hq
  have hden_pos : 0 < q.den := q.den_pos
  have hnum_ne : q.num.natAbs ≠ 0 := by
    have : q.num ≠ 0 := by omega
    simpa [Int.natAbs_ne_zero] using this
  set a := natLog2 q.num.natAbs with ha
  set b := natLog2 q.den with hb
  have hN1 : ((2 ^ a : Nat) : ℚ) ≤ (q.num.natAbs : ℚ) := by
    exact_mod_cast natLog2_le_self hnum_ne
  have hN2 : ((q.num.natAbs : ℚ)) < ((2 ^ (a + 1) : Nat) : ℚ) := by
    exact_mod_cast natLog2_lt_self q.num.natAbs
  have hD1 : ((2 ^ b : Nat) : ℚ) ≤ (q.den : ℚ) := by
    exact_mod_cast natLog2_le_self (by omega)
  have hD2 : ((q.den : ℚ)) < ((2 ^ (b + 1) : Nat) : ℚ) := by
    exact_mod_cast natLog2_lt_self q.den
  have hq_eq : q = (q.num.natAbs : ℚ) / (q.den : ℚ) := by
    rw [Int.cast_natAbs, abs_of_pos hnum_pos]
    exact (Rat.num_div_den q).symm
  have hden_posQ : (0 : ℚ) < (q.den : ℚ) := by exact_mod_cast hden_pos
  have hnum_posQ : (0 : ℚ) < (q.num.natAbs : ℚ) := by
    have : 0 < q.num.natAbs := by omega
    exact_mod_cast this
  -- strict upper bound: q < 2^(a+1-b)
  have hupper : q < pow2 ((a : Int) + 1 - b) := by
    rw [hq_eq]
    have h1 : (q.num.natAbs : ℚ) / (q.den : ℚ) <
        ((2 ^ (a + 1) : Nat) : ℚ) / ((2 ^ b : Nat) : ℚ) :=
      div_lt_div₀ hN2 hD1 (by positivity) (by positivity)
    calc (q.num.natAbs : ℚ) / (q.den : ℚ) <
        ((2 ^ (a + 1) : Nat) : ℚ) / ((2 ^ b : Nat) : ℚ) := h1
      _ = pow2 ((a : Int) + 1 - b) := by
        rw [← pow2_natCast, ← pow2_natCast]
        rw [pow2_eq_zpow, pow2_eq_zpow, pow2_eq_zpow, ← zpow_sub₀ two_ne_zero]
        congr 1
  -- strict lower bound: 2^(a-b-1) < q
  have hlower : pow2 ((a : Int) - b - 1) < q := by
    rw [hq_eq]
    have hp1 : (0 : ℚ) < ((2 ^ (b + 1) : Nat) : ℚ) := by positivity
    have h1 : ((2 ^ a : Nat) : ℚ) / ((2 ^ (b + 1) : Nat) : ℚ) ≤
        (q.num.natAbs : ℚ) / ((2 ^ (b + 1) : Nat) : ℚ) :=
      (div_le_div_iff_of_pos_right hp1).mpr hN1
    have h2 : (q.num.natAbs : ℚ) / ((2 ^ (b + 1) : Nat) : ℚ) <
        (q.num.natAbs : ℚ) / (q.den : ℚ) :=
      div_lt_div_of_pos_left hnum_posQ hden_posQ hD2
    have h3 : ((2 ^ a : Nat) : ℚ) / ((2 ^ (b + 1) : Nat) : ℚ) =
        pow2 ((a : Int) - b - 1) := by
      rw [← pow2_natCast, ← pow2_natCast]
      rw [pow2_eq_zpow, pow2_eq_zpow, pow2_eq_zpow, ← zpow_sub₀ two_ne_zero]
      congr 1
      push_cast
      ring
    calc pow2 ((a : Int) - b - 1) =
        ((2 ^ a : Nat) : ℚ) / ((2 ^ (b + 1) : Nat) : ℚ) := h3.symm
      _ ≤ (q.num.natAbs : ℚ) / ((2 ^ (b + 1) : Nat) : ℚ) := h1
      _ < (q.num.natAbs : ℚ) / (q.den : ℚ) := h2
  -- assemble via the branch of ratLog2
  have hdef : ratLog2 q =
      if pow2 ((a : Int) - b) ≤ q then (a : Int) - b else (a : Int) - b - 1 := rfl
  rw [hdef]
  by_cases hcase : pow2 ((a : Int) - b) ≤ q
  · rw [if_pos hcase]
    refine ⟨hcase, ?_⟩
    have he : (a : Int) - b + 1 = (a : Int) + 1 - b := by ring
    rw [he]
    exact hupper
  · rw [if_neg hcase]
    refine ⟨le_of_lt hlower, ?_⟩
    have he : (a : Int) - b - 1 + 1 = (a : Int) - b := by ring
    rw [he]
    exact lt_of_not_le hcase

/-- Rounding an exact integer to the nearest integer returns it. -/
theorem rne_intCast (m : Int) : rne ((m : Int) : ℚ) = m := by
  simp only [rne, Rat.ofInt_eq_cast, Int.floor_intCast, sub_self]
  norm_num

/-- If the rational is already an integer multiple of its rounding grid,
`roundF32` returns it unchanged. -/
theorem roundF32_eq_self_of_grid {q : ℚ} (hq0 : q ≠ 0) {L : Int}
    (hL : max (ratLog2 |q|) (-126) = L) (c : Int)
    (hc : q * pow2 (-(L - 23)) = (c : ℚ)) : roundF32 q = q := by
  unfold roundF32
  rw [if_neg hq0]
  simp only [hL]
  rw [hc, rne_intCast, Rat.ofInt_eq_cast, ← hc]
  rw [mul_assoc, ← pow2_add]
  simp [pow2_zero]

/-- Core exactness lemma: any dyadic rational `x * 2^m` with a 24-bit
mantissa (`|x| ≤ 2^24`) and in-range exponent (`m ≥ -126` covers every use
below) is exactly representable in binary32, so `roundF32` fixes it. -/
theorem roundF32_fix {x : Int} {m : Int} (hx : x.natAbs ≤ 2 ^ 24)
    (hm : -126 ≤ m) : roundF32 ((x : ℚ) * pow2 m) = (x : ℚ) * pow2 m := by
  by_cases hx0 : x = 0
  · subst hx0
    simp [roundF32]
  · set q : ℚ := (x : ℚ) * pow2 m with hq_def
    have hxQ : ((x : ℚ)) ≠ 0 := Int.cast_ne_zero.mpr hx0
    have hq0 : q ≠ 0 := mul_ne_zero hxQ (pow2_pos m).ne'
    have habs : |q| = (x.natAbs : ℚ) * pow2 m := by
      rw [hq_def, abs_mul, abs_of_pos (pow2_pos m), Int.cast_natAbs, Int.cast_abs]
    have habs_pos : 0 < |q| := abs_pos.mpr hq0
    obtain ⟨hL1, hL2⟩ := ratLog2_bracket habs_pos
    set L := ratLog2 |q| with hL_def
    have hnatAbs_pos : 1 ≤ x.natAbs := by omega
    -- upper exponent bound: L ≤ 24 + m
    have hub : |q| ≤ pow2 (24 + m) := by
      rw [habs, pow2_add]
      have h24 : (x.natAbs : ℚ) ≤ pow2 24 := by
        rw [show ((24 : Int)) = ((24 : Nat) : Int) by norm_num, pow2_natCast]
        exact_mod_cast hx
      exact mul_le_mul_of_nonneg_right h24 (pow2_pos m).le
    have hLle : L ≤ 24 + m := pow2_le_iff.mp (le_trans hL1 hub)
    -- lower exponent bound: m ≤ L, so the max is L
    have hlb : pow2 m ≤ |q| := by
      rw [habs]
      have h1 : (1 : ℚ) ≤ (x.natAbs : ℚ) := by exact_mod_cast hnatAbs_pos
      calc pow2 m = 1 * pow2 m := (one_mul _).symm
        _ ≤ (x.natAbs : ℚ) * pow2 m :=
          mul_le_mul_of_nonneg_right h1 (pow2_pos m).le
    have hmL : m ≤ L := by
      have := pow2_lt_iff.mp (lt_of_le_of_lt hlb hL2)
      omega
    have hmax : max (ratLog2 |q|) (-126) = L := by
      rw [← hL_def]
      exact max_eq_left (by omega)
    by_cases hcase : L ≤ 23 + m
    · -- plenty of grid room: q / 2^(L-23) is x * 2^(m+23-L), an integer
      obtain ⟨T, hT⟩ : ∃ T : Nat, m + -(L - 23) = (T : Int) :=
        ⟨(m + -(L - 23)).toNat, by omega⟩
      refine roundF32_eq_self_of_grid hq0 hmax (x * 2 ^ T) ?_
      rw [hq_def, mul_assoc, ← pow2_add, hT, pow2_natCast]
      push_cast
      ring
    · -- boundary case: |x| = 2^24 exactly, and q / 2^(L-23) is x / 2
      have hLeq : L = 24 + m := by omega
      have hxabs : x.natAbs = 2 ^ 24 := by
        have h1 := hL1
        rw [hLeq, habs, pow2_add] at h1
        have h2 : pow2 24 ≤ (x.natAbs : ℚ) :=
          le_of_mul_le_mul_right h1 (pow2_pos m)
        rw [show ((24 : Int)) = ((24 : Nat) : Int) by norm_num, pow2_natCast] at h2
        have h3 : (2 ^ 24 : Nat) ≤ x.natAbs := by exact_mod_cast h2
        omega
      have hdvd : (2 : Int) ∣ x := by
        rcases Int.natAbs_eq x with hsx | hsx
        · refine ⟨(2 : Int) ^ 23, ?_⟩
          rw [hsx, hxabs]
          norm_num
        · refine ⟨-(2 : Int) ^ 23, ?_⟩
          rw [hsx, hxabs]
          norm_num
      refine roundF32_eq_self_of_grid hq0 hmax (x / 2) ?_
      rw [hq_def, mul_assoc, ← pow2_add, show m + -(L - 23) = -1 by omega]
      rw [Int.cast_div_charZero hdvd]
      rw [pow2_eq_zpow, zpow_neg_one]
      push_cast
      ring

/-- Floor of a dyadic-scaled integer is floor division. -/
theorem floor_intCast_mul_pow2_neg (x : Int) (k : Nat) :
    ⌊(x : ℚ) * pow2 (-(k : Int))⌋ = x.fdiv (2 ^ k) := by
  set P : Int := 2 ^ k with hP_def
  have hP_pos : 0 < P := by positivity
  set d : Int := x.fdiv P with hd_def
  have hfm : P * d + x.fmod P = x := Int.fdiv_add_fmod x P
  have hm0 : 0 ≤ x.fmod P := Int.fmod_nonneg' x hP_pos
  have hmlt : x.fmod P < P := Int.fmod_lt_of_pos x hP_pos
  have hd1 : P * d ≤ x := by linarith
  have hd2 : x < P * (d + 1) := by
    have h : P * (d + 1) = P * d + P := by ring
    linarith
  have hPq : (0:ℚ) < ((P : Int) : ℚ) := by exact_mod_cast hP_pos
  have hpow : pow2 (-(k : Int)) = (((P : Int) : ℚ))⁻¹ := by
    rw [pow2_eq_zpow, zpow_neg, zpow_natCast, hP_def]
    push_cast
    ring_nf
  apply Int.floor_eq_iff.mpr
  rw [hpow, ← div_eq_mul_inv]
  constructor
  · rw [le_div_iff₀ hPq]
    exact_mod_cast by nlinarith
  · rw [div_lt_iff₀ hPq]
    exact_mod_cast by nlinarith

/-- `fdiv` by a positive divisor stays within the dividend's magnitude. -/
theorem fdiv_abs_bounds {x P : Int} (hP : 1 ≤ P) :
    -((x.natAbs : Int)) ≤ x.fdiv P ∧ x.fdiv P ≤ (x.natAbs : Int) := by
  have hP_pos : 0 < P := by omega
  set d : Int := x.fdiv P with hd_def
  have hfm : P * d + x.fmod P = x := Int.fdiv_add_fmod x P
  have hm0 : 0 ≤ x.fmod P := Int.fmod_nonneg' x hP_pos
  have hmlt : x.fmod P < P := Int.fmod_lt_of_pos x hP_pos
  have habs1 : -((x.natAbs : Int)) ≤ x := by omega
  have habs2 : x ≤ (x.natAbs : Int) := by omega
  constructor
  · by_cases hd : 0 ≤ d
    · omega
    · -- d < 0: x < P*(d+1) ≤ d+1, so d ≥ x ≥ -natAbs
      have h1 : x < P * (d + 1) := by nlinarith
      have h2 : P * (d + 1) ≤ d + 1 := by nlinarith
      omega
  · by_cases hd : 0 ≤ d
    · -- d ≥ 0: d ≤ P*d ≤ x
      have h1 : d ≤ P * d := by nlinarith
      have h2 : P * d ≤ x := by nlinarith
      omega
    · omega

/-- Rust `f32`-to-`i32` cast of an exact in-range integer value. -/
theorem f32toI32_intCast {n : Int} (h1 : -(2 ^ 31) ≤ n) (h2 : n ≤ 2 ^ 31 - 1) :
    f32toI32 ((n : Int) : ℚ) = n := by
  have htrunc : (if (0:ℚ) ≤ ((n : Int) : ℚ) then ⌊((n : Int) : ℚ)⌋
      else -⌊-((n : Int) : ℚ)⌋) = n := by
    by_cases hn : (0:ℚ) ≤ ((n : Int) : ℚ)
    · rw [if_pos hn, Int.floor_intCast]
    · rw [if_neg hn, ← Int.cast_neg, Int.floor_intCast]
      omega
  simp only [f32toI32, htrunc]
  rw [if_neg (by omega), if_neg (by omega)]

/-- One axis of `blockpos_to_chunk` is exact floor division whenever the
chunk size is a power of two (at most `2^126`) and the coordinate fits in
the f32 exact-integer range `|x| ≤ 2^24`. -/
theorem chunk_axis_pow2 {x : Int} {k : Nat} (hx : x.natAbs ≤ 2 ^ 24)
    (hk : k ≤ 126) : chunk_axis x (2 ^ k) = x.fdiv (2 ^ k) := by
  unfold chunk_axis f32div f32ofInt f32floor
  rw [Rat.ofInt_eq_cast, Rat.ofInt_eq_cast, Rat.ofInt_eq_cast]
  have hfx : roundF32 ((x : Int) : ℚ) = ((x : Int) : ℚ) := by
    have h := roundF32_fix (x := x) (m := 0) hx (by norm_num)
    rw [pow2_zero, mul_one] at h
    exact h
  have hfs : roundF32 ((((2 ^ k : Nat) : Int)) : ℚ) = (((2 ^ k : Nat) : Int) : ℚ) := by
    have h := roundF32_fix (x := 1) (m := (k : Int)) (by norm_num) (by omega)
    rw [Int.cast_one, one_mul, pow2_natCast] at h
    have hcast : ((((2 ^ k : Nat) : Int)) : ℚ) = ((2 ^ k : Nat) : ℚ) := by
      push_cast
      ring
    rw [hcast]
    exact h
  rw [hfx, hfs]
  have hbne : ((((2 ^ k : Nat) : Int)) : ℚ) ≠ 0 := by positivity
  rw [if_neg hbne]
  have hdiv_eq : ((x : Int) : ℚ) / ((((2 ^ k : Nat) : Int)) : ℚ) =
      ((x : Int) : ℚ) * pow2 (-(k : Int)) := by
    rw [pow2_eq_zpow, zpow_neg, zpow_natCast]
    push_cast
    ring
  rw [hdiv_eq, roundF32_fix hx (by omega), floor_intCast_mul_pow2_neg]
  obtain ⟨hb1, hb2⟩ := fdiv_abs_bounds (x := x) (P := 2 ^ k)
    (by { have h2k : (0 : Int) < 2 ^ k := by positivity
          omega })
  exact f32toI32_intCast (by omega) (by omega)

/-- C8 counterexample. `blockpos_to_chunk` divides through `f32`, and at
coordinate `-16777217` (one beyond the exact-integer range of `f32`) the
cast rounds to `-16777216` first, so the result is `-1048576` instead of
`floor(-16777217 / 16) = -1048577`: the function does NOT compute
`floor(coord / chunk_size)` on all of `i32`. -/
theorem blockpos_to_chunk_not_floor_counterexample :
    blockpos_to_chunk ⟨-16777217, 0, 0⟩ ⟨16, 16, 16⟩ = ⟨-1048576, 0, 0⟩ ∧
    Int.fdiv (-16777217) 16 = -1048577 ∧
    (blockpos_to_chunk ⟨-16777217, 0, 0⟩ ⟨16, 16, 16⟩).x ≠
      Int.fdiv (-16777217) 16 := by
  refine ⟨?_, by decide, ?_⟩
  · set_option maxRecDepth 8000 in decide
  · set_option maxRecDepth 8000 in decide

/-- C8 amended. `blockpos_to_chunk` computes `floor(coord / chunk_size)`
per axis whenever each chunk size is a power of two (like every size used
by the program: 16, 8, 4) and each coordinate lies in the `f32`
exact-integer range `|coord| ≤ 2^24`; and both literal test vectors of the
claim evaluate as stated. -/
theorem blockpos_to_chunk_floor_amended :
    (∀ (p : VoxelPos Int) (kx ky kz : Nat),
      p.x.natAbs ≤ 2 ^ 24 → p.y.natAbs ≤ 2 ^ 24 → p.z.natAbs ≤ 2 ^ 24 →
      kx ≤ 126 → ky ≤ 126 → kz ≤ 126 →
      blockpos_to_chunk p ⟨2 ^ kx, 2 ^ ky, 2 ^ kz⟩ =
        ⟨p.x.fdiv (2 ^ kx), p.y.fdiv (2 ^ ky), p.z.fdiv (2 ^ kz)⟩) ∧
    blockpos_to_chunk ⟨6, -1, 7⟩ ⟨16, 16, 16⟩ = ⟨0, -1, 0⟩ ∧
    blockpos_to_chunk ⟨17, -25, 2⟩ ⟨8, 24, 4⟩ = ⟨2, -2, 0⟩ := by
  refine ⟨?_, ?_, ?_⟩
  · intro p kx ky kz hx hy hz hkx hky hkz
    unfold blockpos_to_chunk
    simp only [VoxelPos.mk.injEq]
    exact ⟨chunk_axis_pow2 hx hkx, chunk_axis_pow2 hy hky, chunk_axis_pow2 hz hkz⟩
  · set_option maxRecDepth 8000 in decide
  · set_option maxRecDepth 8000 in decide

/-- Witness for the amended C8 at a concrete position and size. -/
theorem blockpos_to_chunk_floor_amended_witness :
    blockpos_to_chunk ⟨100, -300, 5⟩ ⟨16, 16, 16⟩ = ⟨6, -19, 0⟩ := by
  have h := blockpos_to_chunk_floor_amended.1 ⟨100, -300, 5⟩ 4 4 4
    (by decide) (by decide) (by decide) (by decide) (by decide) (by decide)
  exact h.trans (by decide)

/-- Containment of a coordinate in its computed chunk cell, one axis, for
the fixed chunk size 16. -/
theorem chunk_contains_axis {x : Int} (hx : x.natAbs ≤ 2 ^ 24) :
    wrap32 (chunk_axis x 16 * ((16 : Nat) : Int)) ≤ x ∧
    x < wrap32 (chunk_axis x 16 * ((16 : Nat) : Int)) + 16 := by
  have h16 : (16 : Nat) = 2 ^ 4 := by norm_num
  rw [h16, chunk_axis_pow2 hx (by norm_num)]
  have hfm : (2 ^ 4 : Int) * x.fdiv (2 ^ 4) + x.fmod (2 ^ 4) = x :=
    Int.fdiv_add_fmod x (2 ^ 4)
  have hm0 : 0 ≤ x.fmod (2 ^ 4) := Int.fmod_nonneg' x (by norm_num)
  have hmlt : x.fmod (2 ^ 4) < 2 ^ 4 := Int.fmod_lt_of_pos x (by norm_num)
  obtain ⟨hb1, hb2⟩ := fdiv_abs_bounds (x := x) (P := 2 ^ 4) (by norm_num)
  have hwrap : wrap32 (x.fdiv (2 ^ 4) * (((2 ^ 4 : Nat)) : Int)) =
      x.fdiv (2 ^ 4) * 16 := by
    have hc : (((2 ^ 4 : Nat) : Int)) = 16 := by norm_num
    rw [hc]
    exact wrap32_eq_self (by omega) (by omega)
  rw [hwrap]
  omega

/-- C10 counterexample. At `p = (-16777217, 0, 0)` with chunk size 16,
`blockpos_to_chunk` places `p` in chunk cell `-1048576`, whose block range
starts at `-16777216 > p.x`: the computed cell does NOT contain `p`. -/
theorem chunk_containment_counterexample :
    chunkpos_to_block (blockpos_to_chunk ⟨-16777217, 0, 0⟩ ⟨16, 16, 16⟩)
      ⟨16, 16, 16⟩ = ⟨-16777216, 0, 0⟩ ∧
    ¬ ((chunkpos_to_block (blockpos_to_chunk ⟨-16777217, 0, 0⟩ ⟨16, 16, 16⟩)
      ⟨16, 16, 16⟩).x ≤ -16777217) := by
  refine ⟨?_, ?_⟩
  · set_option maxRecDepth 8000 in decide
  · set_option maxRecDepth 8000 in decide

/-- C10 amended. For every block position whose coordinates lie in the
`f32` exact-integer range `|coord| ≤ 2^24` and the chunk size (16,16,16),
the chunk cell computed by `blockpos_to_chunk` contains the position:
per axis, `chunkpos_to_block(c) ≤ p < chunkpos_to_block(c) + 16`. -/
theorem blockpos_to_chunk_contains_amended (p : VoxelPos Int)
    (hx : p.x.natAbs ≤ 2 ^ 24) (hy : p.y.natAbs ≤ 2 ^ 24)
    (hz : p.z.natAbs ≤ 2 ^ 24) :
    (chunkpos_to_block (blockpos_to_chunk p ⟨16, 16, 16⟩) ⟨16, 16, 16⟩).x ≤ p.x ∧
    p.x < (chunkpos_to_block (blockpos_to_chunk p ⟨16, 16, 16⟩) ⟨16, 16, 16⟩).x + 16 ∧
    (chunkpos_to_block (blockpos_to_chunk p ⟨16, 16, 16⟩) ⟨16, 16, 16⟩).y ≤ p.y ∧
    p.y < (chunkpos_to_block (blockpos_to_chunk p ⟨16, 16, 16⟩) ⟨16, 16, 16⟩).y + 16 ∧
    (chunkpos_to_block (blockpos_to_chunk p ⟨16, 16, 16⟩) ⟨16, 16, 16⟩).z ≤ p.z ∧
    p.z < (chunkpos_to_block (blockpos_to_chunk p ⟨16, 16, 16⟩) ⟨16, 16, 16⟩).z + 16 := by
  obtain ⟨hx1, hx2⟩ := chunk_contains_axis hx
  obtain ⟨hy1, hy2⟩ := chunk_contains_axis hy
  obtain ⟨hz1, hz2⟩ := chunk_contains_axis hz
  exact ⟨hx1, hx2, hy1, hy2, hz1, hz2⟩

/-- Witness for the amended C10 at a concrete position. -/
theorem blockpos_to_chunk_contains_amended_witness :
    (chunkpos_to_block (blockpos_to_chunk ⟨6, -1, 7⟩ ⟨16, 16, 16⟩)
      ⟨16, 16, 16⟩).y ≤ -1 ∧
    -1 < (chunkpos_to_block (blockpos_to_chunk ⟨6, -1, 7⟩ ⟨16, 16, 16⟩)
      ⟨16, 16, 16⟩).y + 16 :=
  ⟨(blockpos_to_chunk_contains_amended ⟨6, -1, 7⟩ (by decide) (by decide)
      (by decide)).2.2.1,
   (blockpos_to_chunk_contains_amended ⟨6, -1, 7⟩ (by decide) (by decide)
      (by decide)).2.2.2.1⟩

/-! ## Dimension and its set operation (from `src/world/dimension.rs`) -/

/-- Modelled from the spec: `VoxelRange<i32>` — an axis-aligned box with
inclusive lower and exclusive upper corner (`voxel/voxelmath.rs` is missing
from the sources). -/
structure VoxelRange where
  lower : VoxelPos Int
  upper : VoxelPos Int
deriving DecidableEq

/-- Modelled from the spec: the range's size query, as the unsigned
per-axis difference `upper - lower` (used by `Dimension` as
`bounds.get_size_unsigned()`). -/
def VoxelRange.get_size_unsigned (r : VoxelRange) : VoxelPos Nat :=
  { x := (r.upper.x - r.lower.x).toNat,
    y := (r.upper.y - r.lower.y).toNat,
    z := (r.upper.z - r.lower.z).toNat }

/-- Modelled from the spec: translating an absolute position to a position
local to the range's lower corner, absent if the position is outside the
range. -/
def VoxelRange.get_local_unsigned (r : VoxelRange) (pos : VoxelPos Int) :
    Option (VoxelPos Nat) :=
  if r.lower.x ≤ pos.x ∧ pos.x < r.upper.x ∧
     r.lower.y ≤ pos.y ∧ pos.y < r.upper.y ∧
     r.lower.z ≤ pos.z ∧ pos.z < r.upper.z then
    some { x := (pos.x - r.lower.x).toNat, y := (pos.y - r.lower.y).toNat,
           z := (pos.z - r.lower.z).toNat }
  else
    none

/-- From `CHUNK_STATE_DIRTY` in `dimension.rs`. -/
def CHUNK_STATE_DIRTY : Nat := 0
/-- From `CHUNK_STATE_WRITING` in `dimension.rs`. -/
def CHUNK_STATE_WRITING : Nat := 1
/-- From `CHUNK_STATE_CLEAN` in `dimension.rs`. -/
def CHUNK_STATE_CLEAN : Nat := 2

/-- From `ChunkEntry` in `dimension.rs`: the chunk's voxel data (`Chunk =
VoxelArray<BlockID, u8>`, BlockID as `Nat`), the atomic tri-state
mesh-status flag, and the chunk's absolute bounds. -/
structure ChunkEntry where
  data : VoxelArray Nat
  state : Nat
  bounds : VoxelRange
deriving DecidableEq

/-- From `Dimension` in `dimension.rs`: the chunk map (association list in
insertion order) plus the declared chunk size. -/
structure Dimension where
  chunks : List (VoxelPos Int × ChunkEntry)
  chunk_size : VoxelPos Nat
deriving DecidableEq

/-- From `ChunkedVoxelError` in `dimension.rs` (`GetFailed` stands for the
propagated failure of the inner chunk `get`, which cannot happen for a
well-formed entry). -/
inductive ChunkedVoxelError where
  | NotLoaded (chunkpos blockpos : VoxelPos Int)
  | ChunkBoundsInvalid (blockpos chunkpos : VoxelPos Int)
  | GetFailed
deriving DecidableEq

/-- Replace the entry stored under `key` in the chunk map. -/
def updateChunk (chunks : List (VoxelPos Int × ChunkEntry))
    (key : VoxelPos Int) (entry : ChunkEntry) :
    List (VoxelPos Int × ChunkEntry) :=
  chunks.map fun c => if c.1 = key then (key, entry) else c

/-- From `Dimension::set` in `dimension.rs`: locate the owning chunk via
`blockpos_to_chunk`; fail `NotLoaded` if absent; verify the entry's bounds
size equals the declared chunk size (`ChunkBoundsInvalid` otherwise);
translate to chunk-local coordinates; read the current value under the
write lock; and only when it differs from the new value, store
`CHUNK_STATE_DIRTY` into the entry's state flag and write the voxel. -/
def Dimension.set (d : Dimension) (coord : VoxelPos Int) (value : Nat) :
    Except ChunkedVoxelError Dimension :=
  let size := d.chunk_size
  let chunkpos := blockpos_to_chunk coord size
  match d.chunks.find? (fun c => c.1 = chunkpos) with
  | none => Except.error (ChunkedVoxelError.NotLoaded chunkpos coord)
  | some pr =>
    let chunk_entry := pr.2
    let bounds := chunk_entry.bounds
    let chunk_size := bounds.get_size_unsigned
    if chunk_size ≠ size then
      Except.error (ChunkedVoxelError.ChunkBoundsInvalid coord chunkpos)
    else
      match bounds.get_local_unsigned coord with
      | some pos =>
        match chunk_entry.data.get pos with
        | none => Except.error ChunkedVoxelError.GetFailed
        | some current =>
          if current ≠ value then
            let entry' : ChunkEntry :=
              { chunk_entry with
                state := CHUNK_STATE_DIRTY,
                data := chunk_entry.data.set pos value }
            Except.ok { d with chunks := updateChunk d.chunks chunkpos entry' }
          else
            Except.ok d
      | none => Except.error (ChunkedVoxelError.ChunkBoundsInvalid coord chunkpos)

/-- The dimension after `Dimension.set` takes its differing-value path:
the owning entry's data is written at the local position and its state
flag is `CHUNK_STATE_DIRTY`. -/
def Dimension.setDirtyResult (d : Dimension) (key : VoxelPos Int)
    (e : ChunkEntry) (pos : VoxelPos Nat) (v : Nat) : Dimension :=
  let entry' : ChunkEntry :=
    { e with state := CHUNK_STATE_DIRTY, data := e.data.set pos v }
  { d with chunks := updateChunk d.chunks key entry' }

/-- C3. For every `Dimension`, loaded chunk entry and in-chunk position:
setting a voxel to its stored value leaves the whole dimension — in
particular the entry's mesh-status flag and the chunk data — unchanged,
while setting a different value succeeds with the entry's data updated and
its state flag stored as `CHUNK_STATE_DIRTY`, regardless of the prior
state value. -/
theorem dimension_set_dirty_semantics (d : Dimension) (coord : VoxelPos Int)
    (v : Nat) (pr : VoxelPos Int × ChunkEntry) (pos : VoxelPos Nat) (cur : Nat)
    (hfind : d.chunks.find? (fun c => c.1 = blockpos_to_chunk coord d.chunk_size)
      = some pr)
    (hbounds : pr.2.bounds.get_size_unsigned = d.chunk_size)
    (hloc : pr.2.bounds.get_local_unsigned coord = some pos)
    (hget : pr.2.data.get pos = some cur) :
    (cur = v → d.set coord v = Except.ok d) ∧
    (cur ≠ v → d.set coord v = Except.ok
      (d.setDirtyResult (blockpos_to_chunk coord d.chunk_size) pr.2 pos v)) := by
  constructor
  · intro hcase
    simp only [Dimension.set, hfind, hbounds, hloc, hget, hcase]
    simp
  · intro hcase
    simp only [Dimension.set, Dimension.setDirtyResult, hfind, hbounds, hloc,
      hget]
    rw [if_neg (by simp [hbounds]), if_pos hcase]

/-- Witness for C3: a 2×2×2 dimension holding one chunk at the origin
filled with block 7 and state `CHUNK_STATE_CLEAN`. Writing 7 at (1,0,1)
returns the dimension unchanged; writing 9 dirties the entry and updates
the data. -/
theorem dimension_set_dirty_semantics_witness :
    (Dimension.set
        ⟨[(⟨0,0,0⟩, ⟨VoxelArray.new_solid 2 2 2 7, CHUNK_STATE_CLEAN,
            ⟨⟨0,0,0⟩, ⟨2,2,2⟩⟩⟩)], ⟨2,2,2⟩⟩ ⟨1,0,1⟩ 7
      = Except.ok
        ⟨[(⟨0,0,0⟩, ⟨VoxelArray.new_solid 2 2 2 7, CHUNK_STATE_CLEAN,
            ⟨⟨0,0,0⟩, ⟨2,2,2⟩⟩⟩)], ⟨2,2,2⟩⟩) ∧
    (Dimension.set
        ⟨[(⟨0,0,0⟩, ⟨VoxelArray.new_solid 2 2 2 7, CHUNK_STATE_CLEAN,
            ⟨⟨0,0,0⟩, ⟨2,2,2⟩⟩⟩)], ⟨2,2,2⟩⟩ ⟨1,0,1⟩ 9
      = Except.ok (Dimension.setDirtyResult
          ⟨[(⟨0,0,0⟩, ⟨VoxelArray.new_solid 2 2 2 7, CHUNK_STATE_CLEAN,
              ⟨⟨0,0,0⟩, ⟨2,2,2⟩⟩⟩)], ⟨2,2,2⟩⟩
          (blockpos_to_chunk ⟨1,0,1⟩ ⟨2,2,2⟩)
          ⟨VoxelArray.new_solid 2 2 2 7, CHUNK_STATE_CLEAN,
            ⟨⟨0,0,0⟩, ⟨2,2,2⟩⟩⟩
          ⟨1,0,1⟩ 9)) :=
  ⟨(dimension_set_dirty_semantics
      ⟨[(⟨0,0,0⟩, ⟨VoxelArray.new_solid 2 2 2 7, CHUNK_STATE_CLEAN,
          ⟨⟨0,0,0⟩, ⟨2,2,2⟩⟩⟩)], ⟨2,2,2⟩⟩ ⟨1,0,1⟩ 7
      (⟨0,0,0⟩, ⟨VoxelArray.new_solid 2 2 2 7, CHUNK_STATE_CLEAN,
          ⟨⟨0,0,0⟩, ⟨2,2,2⟩⟩⟩) ⟨1,0,1⟩ 7
      (by decide) (by decide) (by decide) (by decide)).1 rfl,
   (dimension_set_dirty_semantics
      ⟨[(⟨0,0,0⟩, ⟨VoxelArray.new_solid 2 2 2 7, CHUNK_STATE_CLEAN,
          ⟨⟨0,0,0⟩, ⟨2,2,2⟩⟩⟩)], ⟨2,2,2⟩⟩ ⟨1,0,1⟩ 9
      (⟨0,0,0⟩, ⟨VoxelArray.new_solid 2 2 2 7, CHUNK_STATE_CLEAN,
          ⟨⟨0,0,0⟩, ⟨2,2,2⟩⟩⟩) ⟨1,0,1⟩ 7
      (by decide) (by decide) (by decide) (by decide)).2 (by decide)⟩

/-! ## Chunk streaming (from `Dimension::load_unload_chunks_*` in
`src/world/dimension.rs`).

The chunk map is the association list of `Dimension.chunks`; the world
generator (`PerlinGenerator::new().generate(range, 0)`, whose numeric
content is modelled separately) is abstracted as a parameter
`gen : VoxelRange → VoxelArray Nat` producing the chunk data for a bounds
range — the keys touched by load/unload do not depend on it. -/

/-- `HashMap::contains_key` on the chunk map. -/
def containsKey (chunks : List (VoxelPos Int × ChunkEntry))
    (q : VoxelPos Int) : Bool :=
  chunks.any fun c => decide (c.1 = q)

/-- From `const CHUNK_RADIUS: i32 = 2` in `dimension.rs`. -/
def CHUNK_RADIUS : Int := 2

/-- From `const CHUNK_DISTANCE: f32 = CHUNK_RADIUS as f32 * 2.0 * 16.0`:
the product is computed exactly in `f32` and equals 64.0. -/
def CHUNK_DISTANCE : ℚ := 64

/-- From `const RETAIN_RADIUS: f32 = CHUNK_DISTANCE + 4.0`: exactly 68.0
in `f32`. -/
def RETAIN_RADIUS : ℚ := CHUNK_DISTANCE + 4

/-- The integers `a, a+1, ..., a+n-1` (a Rust `a..a+n` loop). -/
def intRange (a : Int) (n : Nat) : List Int :=
  (List.range n).map fun i => a + (i : Int)

/-- `(player_pos.axis / (chunk_size.axis as f32)) as i32`: `f32` division
followed by the truncating cast. -/
def playerChunk (p : ℚ) (s : Nat) : Int :=
  f32toI32 (f32div p (f32ofInt (s : Int)))

/-- The chunk cells visited by the triple `for cx/cy/cz` loop:
`player_axis_in_chunks - CHUNK_RADIUS .. player_axis_in_chunks +
CHUNK_RADIUS + 1` on each axis, in x-outer z-inner order. -/
def chunkBoxCells (player_pos : P3) (chunk_size : VoxelPos Nat) :
    List (VoxelPos Int) :=
  (intRange (playerChunk player_pos.x chunk_size.x - CHUNK_RADIUS) 5).flatMap
    fun cx =>
      (intRange (playerChunk player_pos.y chunk_size.y - CHUNK_RADIUS)
          5).flatMap
        fun cy =>
          (intRange (playerChunk player_pos.z chunk_size.z - CHUNK_RADIUS)
              5).map
            fun cz => ⟨cx, cy, cz⟩

/-- The loop body for one visited cell: skip if the key is present
(`contains_key`/`continue`); otherwise, when the `f32` distance from the
cell's center to the player is `< CHUNK_DISTANCE`, insert a fresh entry
whose bounds run from `chunkpos_to_block` over one chunk size, with data
from the generator and state `CHUNK_STATE_DIRTY`. -/
def streamInsertCell (gen : VoxelRange → VoxelArray Nat) (player_pos : P3)
    (chunk_size : VoxelPos Nat) (chunks : List (VoxelPos Int × ChunkEntry))
    (cell : VoxelPos Int) : List (VoxelPos Int × ChunkEntry) :=
  if containsKey chunks cell then chunks
  else if distanceF32 (chunkpos_to_center cell chunk_size) player_pos
      < CHUNK_DISTANCE then
    let chunk_origin := chunkpos_to_block cell chunk_size
    let range : VoxelRange :=
      ⟨chunk_origin,
       ⟨wrap32 (chunk_origin.x + (chunk_size.x : Int)),
        wrap32 (chunk_origin.y + (chunk_size.y : Int)),
        wrap32 (chunk_origin.z + (chunk_size.z : Int))⟩⟩
    chunks ++ [(cell, ⟨gen range, CHUNK_STATE_DIRTY, range⟩)]
  else chunks

/-- From `Dimension::load_unload_chunks_clientside`: retain the chunks
whose center's `f32` distance to the player is `< RETAIN_RADIUS`, then
walk the ±`CHUNK_RADIUS` box around the player's chunk cell inserting
absent cells whose distance is `< CHUNK_DISTANCE`. -/
def Dimension.load_unload_chunks_clientside (gen : VoxelRange → VoxelArray Nat)
    (d : Dimension) (player_pos : P3) : Dimension :=
  let chunk_size := d.chunk_size
  let retained := d.chunks.filter fun c =>
    decide (distanceF32 (chunkpos_to_center c.1 chunk_size) player_pos
      < RETAIN_RADIUS)
  let chunks' := (chunkBoxCells player_pos chunk_size).foldl
    (streamInsertCell gen player_pos chunk_size) retained
  { d with chunks := chunks' }

/-- From `Dimension::load_unload_chunks_serverside`: retain the chunks
within `RETAIN_RADIUS` of some observer, then run the clientside insert
walk once per observer. -/
def Dimension.load_unload_chunks_serverside (gen : VoxelRange → VoxelArray Nat)
    (d : Dimension) (player_positions : List P3) : Dimension :=
  let chunk_size := d.chunk_size
  let retained := d.chunks.filter fun c =>
    player_positions.any fun p =>
      decide (distanceF32 (chunkpos_to_center c.1 chunk_size) p
        < RETAIN_RADIUS)
  let chunks' := player_positions.foldl
    (fun acc p => (chunkBoxCells p chunk_size).foldl
      (streamInsertCell gen p chunk_size) acc)
    retained
  { d with chunks := chunks' }

theorem containsKey_streamInsertCell (gen : VoxelRange → VoxelArray Nat)
    (p : P3) (size : VoxelPos Nat) (chunks : List (VoxelPos Int × ChunkEntry))
    (cell q : VoxelPos Int) :
    containsKey (streamInsertCell gen p size chunks cell) q = true ↔
      containsKey chunks q = true ∨
        (q = cell ∧
          distanceF32 (chunkpos_to_center cell size) p < CHUNK_DISTANCE) := by
  by_cases h1 : containsKey chunks cell = true
  · simp only [streamInsertCell, h1, if_true]
    constructor
    · exact Or.inl
    · rintro (h | ⟨rfl, _⟩)
      · exact h
      · exact h1
  · by_cases h2 : distanceF32 (chunkpos_to_center cell size) p < CHUNK_DISTANCE
    · simp only [streamInsertCell, h1, Bool.false_eq_true, if_false, if_pos h2]
      simp only [containsKey, List.any_append, List.any_cons, List.any_nil,
        Bool.or_eq_true, decide_eq_true_eq, Bool.or_false]
      constructor
      · rintro (h | h)
        · exact Or.inl h
        · exact Or.inr ⟨h.symm, h2⟩
      · rintro (h | ⟨rfl, _⟩)
        · exact Or.inl h
        · exact Or.inr rfl
    · simp only [streamInsertCell, h1, Bool.false_eq_true, if_false, if_neg h2]
      constructor
      · exact Or.inl
      · rintro (h | ⟨rfl, hd⟩)
        · exact h
        · exact absurd hd h2

theorem containsKey_foldl_insert (gen : VoxelRange → VoxelArray Nat) (p : P3)
    (size : VoxelPos Nat) (cells : List (VoxelPos Int))
    (chunks : List (VoxelPos Int × ChunkEntry)) (q : VoxelPos Int) :
    containsKey (cells.foldl (streamInsertCell gen p size) chunks) q = true ↔
      containsKey chunks q = true ∨
        (q ∈ cells ∧
          distanceF32 (chunkpos_to_center q size) p < CHUNK_DISTANCE) := by
  induction cells generalizing chunks with
  | nil => simp
  | cons c cs ih =>
    simp only [List.foldl_cons, ih, containsKey_streamInsertCell,
      List.mem_cons]
    constructor
    · rintro ((h | ⟨rfl, hd⟩) | ⟨hq, hd⟩)
      · exact Or.inl h
      · exact Or.inr ⟨Or.inl rfl, hd⟩
      · exact Or.inr ⟨Or.inr hq, hd⟩
    · rintro (h | ⟨rfl | hq, hd⟩)
      · exact Or.inl (Or.inl h)
      · exact Or.inl (Or.inr ⟨rfl, hd⟩)
      · exact Or.inr ⟨hq, hd⟩

theorem containsKey_filter (chunks : List (VoxelPos Int × ChunkEntry))
    (pred : VoxelPos Int → Bool) (q : VoxelPos Int) :
    containsKey (chunks.filter fun c => pred c.1) q = true ↔
      containsKey chunks q = true ∧ pred q = true := by
  induction chunks with
  | nil => simp [containsKey]
  | cons c cs ih =>
    by_cases hpc : pred c.1 = true
    · simp only [List.filter_cons, hpc, if_true, containsKey, List.any_cons,
        Bool.or_eq_true, decide_eq_true_eq] at ih ⊢
      by_cases hq : c.1 = q
      · subst hq
        simp [hpc]
      · simp only [hq, false_or]
        exact ih
    · simp only [List.filter_cons, hpc, Bool.false_eq_true, if_false,
        containsKey, List.any_cons, Bool.or_eq_true, decide_eq_true_eq]
        at ih ⊢
      rw [ih]
      constructor
      · rintro ⟨h, hp⟩
        exact ⟨Or.inr h, hp⟩
      · rintro ⟨hq | h, hp⟩
        · subst hq
          exact absurd hp hpc
        · exact ⟨h, hp⟩

theorem containsKey_filter_client (chunks : List (VoxelPos Int × ChunkEntry))
    (player_pos : P3) (size : VoxelPos Nat) (q : VoxelPos Int) :
    containsKey (chunks.filter fun c =>
        decide (distanceF32 (chunkpos_to_center c.1 size) player_pos
          < RETAIN_RADIUS)) q = true ↔
      containsKey chunks q = true ∧
        distanceF32 (chunkpos_to_center q size) player_pos < RETAIN_RADIUS := by
  have h := containsKey_filter chunks (fun k =>
    decide (distanceF32 (chunkpos_to_center k size) player_pos
      < RETAIN_RADIUS)) q
  simpa using h

theorem containsKey_filter_server (chunks : List (VoxelPos Int × ChunkEntry))
    (ps : List P3) (size : VoxelPos Nat) (q : VoxelPos Int) :
    containsKey (chunks.filter fun c => ps.any fun p =>
        decide (distanceF32 (chunkpos_to_center c.1 size) p
          < RETAIN_RADIUS)) q = true ↔
      containsKey chunks q = true ∧
        ∃ p ∈ ps, distanceF32 (chunkpos_to_center q size) p
          < RETAIN_RADIUS := by
  have h := containsKey_filter chunks (fun k => ps.any fun p =>
    decide (distanceF32 (chunkpos_to_center k size) p < RETAIN_RADIUS)) q
  simpa [List.any_eq_true] using h

theorem containsKey_clientside (gen : VoxelRange → VoxelArray Nat)
    (d : Dimension) (player_pos : P3) (q : VoxelPos Int) :
    containsKey (d.load_unload_chunks_clientside gen player_pos).chunks q
        = true ↔
      (containsKey d.chunks q = true ∧
        distanceF32 (chunkpos_to_center q d.chunk_size) player_pos
          < RETAIN_RADIUS) ∨
      (q ∈ chunkBoxCells player_pos d.chunk_size ∧
        distanceF32 (chunkpos_to_center q d.chunk_size) player_pos
          < CHUNK_DISTANCE) := by
  simp only [Dimension.load_unload_chunks_clientside, containsKey_foldl_insert]
  rw [containsKey_filter_client]

theorem containsKey_foldl_players (gen : VoxelRange → VoxelArray Nat)
    (size : VoxelPos Nat) (ps : List P3)
    (chunks : List (VoxelPos Int × ChunkEntry)) (q : VoxelPos Int) :
    containsKey (ps.foldl (fun acc p => (chunkBoxCells p size).foldl
        (streamInsertCell gen p size) acc) chunks) q = true ↔
      containsKey chunks q = true ∨
        ∃ p ∈ ps, q ∈ chunkBoxCells p size ∧
          distanceF32 (chunkpos_to_center q size) p < CHUNK_DISTANCE := by
  induction ps generalizing chunks with
  | nil => simp
  | cons p ps ih =>
    simp only [List.foldl_cons, ih, containsKey_foldl_insert, List.mem_cons]
    constructor
    · rintro ((h | ⟨hbox, hd⟩) | ⟨r, hr, hbox, hd⟩)
      · exact Or.inl h
      · exact Or.inr ⟨p, Or.inl rfl, hbox, hd⟩
      · exact Or.inr ⟨r, Or.inr hr, hbox, hd⟩
    · rintro (h | ⟨r, rfl | hr, hbox, hd⟩)
      · exact Or.inl (Or.inl h)
      · exact Or.inl (Or.inr ⟨hbox, hd⟩)
      · exact Or.inr ⟨r, hr, hbox, hd⟩

theorem containsKey_serverside (gen : VoxelRange → VoxelArray Nat)
    (d : Dimension) (ps : List P3) (q : VoxelPos Int) :
    containsKey (d.load_unload_chunks_serverside gen ps).chunks q = true ↔
      (containsKey d.chunks q = true ∧
        ∃ p ∈ ps, distanceF32 (chunkpos_to_center q d.chunk_size) p
          < RETAIN_RADIUS) ∨
      ∃ p ∈ ps, q ∈ chunkBoxCells p d.chunk_size ∧
        distanceF32 (chunkpos_to_center q d.chunk_size) p < CHUNK_DISTANCE := by
  simp only [Dimension.load_unload_chunks_serverside,
    containsKey_foldl_players]
  rw [containsKey_filter_server]

/-- C2. Membership effect of one chunk-streaming pass, in terms of the
code's own `f32` center distances, for any chunk size (so in particular
(16,16,16)). Clientside: a loaded chunk is removed iff the observer's
distance to its center is at least `RETAIN_RADIUS` (68.0); a previously
absent chunk is inserted only when that distance is strictly below
`CHUNK_DISTANCE` (64.0); and when the distance lies in [64.0, 68.0), the
chunk's membership does not change — so repeated calls with the distance
staying in that band cause neither an unload nor a re-load. Serverside,
over a list of observers: removal iff every observer is at distance ≥
68.0, insertion of an absent chunk only when some observer is within
64.0, and membership is unchanged whenever every observer is at distance
≥ 64.0 and some observer is at distance < 68.0. -/
theorem load_unload_chunks_membership (gen : VoxelRange → VoxelArray Nat)
    (d : Dimension) (player_pos : P3) (ps : List P3) (q : VoxelPos Int) :
    (containsKey d.chunks q = true →
      (containsKey (d.load_unload_chunks_clientside gen player_pos).chunks q
          = false ↔
        RETAIN_RADIUS ≤
          distanceF32 (chunkpos_to_center q d.chunk_size) player_pos)) ∧
    (containsKey d.chunks q = false →
      containsKey (d.load_unload_chunks_clientside gen player_pos).chunks q
        = true →
      distanceF32 (chunkpos_to_center q d.chunk_size) player_pos
        < CHUNK_DISTANCE) ∧
    (CHUNK_DISTANCE ≤
        distanceF32 (chunkpos_to_center q d.chunk_size) player_pos →
      distanceF32 (chunkpos_to_center q d.chunk_size) player_pos
        < RETAIN_RADIUS →
      containsKey (d.load_unload_chunks_clientside gen player_pos).chunks q
        = containsKey d.chunks q) ∧
    (containsKey d.chunks q = true →
      (containsKey (d.load_unload_chunks_serverside gen ps).chunks q
          = false ↔
        ∀ p ∈ ps, RETAIN_RADIUS ≤
          distanceF32 (chunkpos_to_center q d.chunk_size) p)) ∧
    (containsKey d.chunks q = false →
      containsKey (d.load_unload_chunks_serverside gen ps).chunks q = true →
      ∃ p ∈ ps, distanceF32 (chunkpos_to_center q d.chunk_size) p
        < CHUNK_DISTANCE) ∧
    ((∀ p ∈ ps, CHUNK_DISTANCE ≤
        distanceF32 (chunkpos_to_center q d.chunk_size) p) →
      (∃ p ∈ ps, distanceF32 (chunkpos_to_center q d.chunk_size) p
        < RETAIN_RADIUS) →
      containsKey (d.load_unload_chunks_serverside gen ps).chunks q
        = containsKey d.chunks q) := by
  have hC := containsKey_clientside gen d player_pos q
  have hS := containsKey_serverside gen d ps q
  have h68 : CHUNK_DISTANCE < RETAIN_RADIUS := by
    norm_num [CHUNK_DISTANCE, RETAIN_RADIUS]
  refine ⟨?_, ?_, ?_, ?_, ?_, ?_⟩
  · intro hq
    constructor
    · intro hfalse
      by_contra hge
      push_neg at hge
      have htrue := hC.mpr (Or.inl ⟨hq, hge⟩)
      simp [hfalse] at htrue
    · intro hge
      cases hres : containsKey
          (d.load_unload_chunks_clientside gen player_pos).chunks q with
      | false => rfl
      | true =>
        rcases hC.mp hres with ⟨_, hlt⟩ | ⟨_, hlt⟩ <;> linarith
  · intro hq hto
    rcases hC.mp hto with ⟨h1, _⟩ | ⟨_, hlt⟩
    · exact absurd h1 (by simp [hq])
    · exact hlt
  · intro h64 h67
    cases h : containsKey d.chunks q with
    | false =>
      cases hres : containsKey
          (d.load_unload_chunks_clientside gen player_pos).chunks q with
      | false => rfl
      | true =>
        rcases hC.mp hres with ⟨h1, _⟩ | ⟨_, hlt⟩
        · exact absurd h1 (by simp [h])
        · linarith
    | true => exact hC.mpr (Or.inl ⟨h, h67⟩)
  · intro hq
    constructor
    · intro hfalse
      intro p hp
      by_contra hge
      push_neg at hge
      have htrue := hS.mpr (Or.inl ⟨hq, p, hp, hge⟩)
      simp [hfalse] at htrue
    · intro hall
      cases hres : containsKey
          (d.load_unload_chunks_serverside gen ps).chunks q with
      | false => rfl
      | true =>
        rcases hS.mp hres with ⟨_, p, hp, hlt⟩ | ⟨p, hp, _, hlt⟩ <;>
          have := hall p hp <;> linarith
  · intro hq hto
    rcases hS.mp hto with ⟨h1, _⟩ | ⟨p, hp, _, hlt⟩
    · exact absurd h1 (by simp [hq])
    · exact ⟨p, hp, hlt⟩
  · intro hall hex
    cases h : containsKey d.chunks q with
    | false =>
      cases hres : containsKey
          (d.load_unload_chunks_serverside gen ps).chunks q with
      | false => rfl
      | true =>
        rcases hS.mp hres with ⟨h1, _⟩ | ⟨p, hp, _, hlt⟩
        · exact absurd h1 (by simp [h])
        · have := hall p hp
          linarith
    | true =>
      obtain ⟨p, hp, hlt⟩ := hex
      exact hS.mpr (Or.inl ⟨h, p, hp, hlt⟩)

/-- Witness for C2: a dimension with chunk size (16,16,16) holding one
chunk at cell (0,0,0) (center (8,8,8)) and an observer at (73,8,8), whose
`f32` distance to the center is exactly 65.0 ∈ [64.0, 68.0): one
clientside pass leaves the chunk's membership unchanged. -/
theorem load_unload_chunks_membership_witness :
    (CHUNK_DISTANCE ≤
      distanceF32 (chunkpos_to_center ⟨0, 0, 0⟩ ⟨16, 16, 16⟩) ⟨73, 8, 8⟩) ∧
    (distanceF32 (chunkpos_to_center ⟨0, 0, 0⟩ ⟨16, 16, 16⟩) ⟨73, 8, 8⟩
      < RETAIN_RADIUS) ∧
    containsKey (Dimension.load_unload_chunks_clientside
        (fun _ => VoxelArray.load_new 0 0 0 [])
        ⟨[(⟨0, 0, 0⟩, ⟨VoxelArray.new_solid 1 1 1 0, CHUNK_STATE_CLEAN,
            ⟨⟨0, 0, 0⟩, ⟨1, 1, 1⟩⟩⟩)], ⟨16, 16, 16⟩⟩ ⟨73, 8, 8⟩).chunks
        ⟨0, 0, 0⟩
      = containsKey [(⟨0, 0, 0⟩, ⟨VoxelArray.new_solid 1 1 1 0,
          CHUNK_STATE_CLEAN, ⟨⟨0, 0, 0⟩, ⟨1, 1, 1⟩⟩⟩)] ⟨0, 0, 0⟩ :=
  ⟨by set_option maxRecDepth 10000 in decide,
   by set_option maxRecDepth 10000 in decide,
   (load_unload_chunks_membership (fun _ => VoxelArray.load_new 0 0 0 [])
      ⟨[(⟨0, 0, 0⟩, ⟨VoxelArray.new_solid 1 1 1 0, CHUNK_STATE_CLEAN,
          ⟨⟨0, 0, 0⟩, ⟨1, 1, 1⟩⟩⟩)], ⟨16, 16, 16⟩⟩ ⟨73, 8, 8⟩ [] ⟨0, 0, 0⟩).2.2.1
     (by set_option maxRecDepth 10000 in decide)
     (by set_option maxRecDepth 10000 in decide)⟩

/-! ## Perlin world generator (from
`src/world/generators/perlingenerator.rs`).

`Perlin` comes from the external noise crate: `Perlin::new()` builds an
instance at the crate's default seed, and `Seedable::set_seed` CONSUMES
its receiver and RETURNS a freshly seeded instance (`Perlin` is `Copy`,
so `perlin.set_seed(1);` as a statement copies `perlin`, reseeds the
copy, and discards it). Only the seed state is modelled; the sampling
function itself (`NoiseFn::get`) is abstracted as a parameter of
`generate`, and the `f64`/`f32` arithmetic of `generate` is modelled as
exact rational arithmetic — every quantity in `generate` is a pure
function of the generator value, the bounds, and the sampler, which is
what the determinism statement is about. -/

/-- The noise crate's default seed (`Perlin::new()` uses 0). -/
def PERLIN_DEFAULT_SEED : Nat := 0

/-- The seed state of a noise-crate `Perlin` instance. -/
structure Perlin where
  seed : Nat
deriving DecidableEq

/-- `Perlin::new()`: an instance at the crate's default seed. -/
def Perlin.new : Perlin := ⟨PERLIN_DEFAULT_SEED⟩

/-- `Seedable::set_seed(self, seed) -> Perlin`: returns a new instance
seeded with `seed` (the receiver is consumed by value). -/
def Perlin.set_seed (_p : Perlin) (s : Nat) : Perlin := ⟨s⟩

/-- From the `PerlinGenerator` struct: two noise fields plus the `f64`
tuning constants (decimal literals, modelled by their decimal values). -/
structure PerlinGenerator where
  perlin : Perlin
  scale : ℚ
  offset : ℚ
  block_type_noise : Perlin
  block_type_scale : ℚ
deriving DecidableEq

/-- From `PerlinGenerator::new`: both `set_seed` calls are statements
whose returned instance is discarded (and the second targets `perlin`,
not `block_type_noise`), so both stored fields keep the copies made by
`Perlin::new()`. -/
def PerlinGenerator.new : PerlinGenerator :=
  let perlin := Perlin.new
  let _ := perlin.set_seed 1
  let block_type_noise := Perlin.new
  let _ := perlin.set_seed 50
  { perlin := perlin,
    scale := 8126 / 1000000,
    offset := 26378 / 100000,
    block_type_noise := block_type_noise,
    block_type_scale := 63647 / 1000000 }

/-- Rust `f64 as u32`: truncate toward zero and saturate to [0, 2^32). -/
def f64toU32 (q : ℚ) : Nat :=
  if q ≤ 0 then 0 else min (2 ^ 32 - 1) (Int.toNat ⌊q⌋)

/-- From `PerlinGenerator::generate` (`WorldGenerator` impl): zero-fill
`size.x*size.y*size.z` cells, then for each (x, z) column sample the
height noise once and fill every y with
`(bounds.lower.y + y) as f32 <= height_abs` with the block id
`((block_type_val * 3.0) + 1.0) as u32` sampled from the block-type
noise; the backing `VoxelArray` is built by `load_new` with the sizes
cast to `u8`. `noiseGet` stands for the noise crate's `NoiseFn::get` on
a 2-point. The unused `_dimension_id` is kept in the signature. -/
def PerlinGenerator.generate (g : PerlinGenerator)
    (noiseGet : Perlin → ℚ × ℚ → ℚ) (bounds : VoxelRange)
    (_dimension_id : Nat) : VoxelArray Nat :=
  let size : VoxelPos Int :=
    ⟨bounds.upper.x - bounds.lower.x, bounds.upper.y - bounds.lower.y,
     bounds.upper.z - bounds.lower.z⟩
  let sx := size.x.toNat
  let sy := size.y.toNat
  let sz := size.z.toNat
  let data0 : List Nat := List.replicate (sx * sy * sz) 0
  let data := (List.range sx).foldl (fun dx (x : Nat) =>
    (List.range sz).foldl (fun dz (z : Nat) =>
      let height_norm := noiseGet g.perlin
        (((wrap32 (bounds.lower.x + (x : Int)) : Int) + g.offset) * g.scale,
         ((wrap32 (bounds.lower.z + (z : Int)) : Int) + g.offset) * g.scale)
        / 2 + 1 / 2
      let height_abs := height_norm * ((wrap32 (size.y * 2) : Int) : ℚ)
      (List.range sy).foldl (fun dy (y : Nat) =>
        if ((wrap32 (bounds.lower.y + (y : Int)) : Int) : ℚ) ≤ height_abs then
          let block_type_val := noiseGet g.block_type_noise
            (((wrap32 (bounds.lower.x + (x : Int)) : Int) : ℚ)
                * g.block_type_scale,
             ((wrap32 (bounds.lower.z + (z : Int)) : Int) : ℚ)
                * g.block_type_scale) / 2 + 1 / 2
          let block_id := f64toU32 (block_type_val * 3 + 1)
          dy.set (xyz_to_i x y z sx sy sz) block_id
        else dy) dz) dx) data0
  VoxelArray.load_new (sx % 256) (sy % 256) (sz % 256) data

/-- Counterexample for C7's seed configuration: in `PerlinGenerator::new`
both noise fields end up at the crate default seed — the `set_seed(1)`
and `set_seed(50)` results are discarded (and the second call targets
`perlin`, not `block_type_noise`) — even though `set_seed` itself would
have produced instances seeded 1 and 50. -/
theorem perlingenerator_seeds_counterexample :
    PerlinGenerator.new.perlin = Perlin.new ∧
    PerlinGenerator.new.block_type_noise = Perlin.new ∧
    PerlinGenerator.new.perlin.seed ≠ 1 ∧
    PerlinGenerator.new.block_type_noise.seed ≠ 50 ∧
    (Perlin.new.set_seed 1).seed = 1 ∧
    (Perlin.new.set_seed 50).seed = 50 := by
  refine ⟨rfl, rfl, ?_, ?_, rfl, rfl⟩ <;> decide

/-- C7 (amended). Generation is deterministic: any two generators built
by `PerlinGenerator::new()` — e.g. in different processes — are the same
value, so for every noise sampler, bounds and dimension id they produce
identical chunk contents; but the seed configuration is the crate default
for both noise fields (the `set_seed(1)`/`set_seed(50)` results are
discarded), not height seed 1 and block-type seed 50 as claimed. -/
theorem perlingenerator_deterministic_amended
    (noiseGet : Perlin → ℚ × ℚ → ℚ) (bounds : VoxelRange) (i : Nat)
    (g1 g2 : PerlinGenerator)
    (h1 : g1 = PerlinGenerator.new) (h2 : g2 = PerlinGenerator.new) :
    g1.generate noiseGet bounds i = g2.generate noiseGet bounds i ∧
    g1.perlin.seed = PERLIN_DEFAULT_SEED ∧
    g1.block_type_noise.seed = PERLIN_DEFAULT_SEED := by
  subst h1
  subst h2
  exact ⟨rfl, rfl, rfl⟩

/-- Witness for C7's amended theorem at a concrete sampler, bounds and
dimension id. -/
theorem perlingenerator_deterministic_amended_witness :
    PerlinGenerator.new.generate (fun _ _ => 0) ⟨⟨0, 0, 0⟩, ⟨1, 1, 1⟩⟩ 0
      = PerlinGenerator.new.generate (fun _ _ => 0) ⟨⟨0, 0, 0⟩, ⟨1, 1, 1⟩⟩ 0 ∧
    PerlinGenerator.new.perlin.seed = PERLIN_DEFAULT_SEED ∧
    PerlinGenerator.new.block_type_noise.seed = PERLIN_DEFAULT_SEED :=
  perlingenerator_deterministic_amended (fun _ _ => 0)
    ⟨⟨0, 0, 0⟩, ⟨1, 1, 1⟩⟩ 0 PerlinGenerator.new PerlinGenerator.new rfl rfl
